import Mathlib

/-!
Verification of the dependency-resolution core of `pyproject-toml-rs`.

The repository ships three revisions of the group-resolution algorithm:

* `src/resolution.rs` — the current resolver, reached through
  `PyProjectToml::resolve()`.  It resolves the `project.optional-dependencies`
  table first and then the `dependency-groups` table, memoising results in a
  `ResolvedDependencies` accumulator, detecting cycles with an ancestor stack
  of tagged `Item`s, and matching optional-dependency names up to PEP 685
  normalization.
* `src/pep735_resolve.rs` — an earlier revision exposing
  `DependencyGroups::resolve` / `OptionalDependencies::resolve` through a
  generic `resolve_group` parameterised by a `DependencyEntry` trait, with its
  own error messages.
* `src/has_recursion.rs` + `src/optional_dependencies_resolve.rs` — an older
  trait-based ancestor of the pep735 revision with identical resolution logic
  and messages.

Both the current resolver and the pep735 revision are embedded below.  The
Rust recursion is modelled with an explicit fuel parameter: `RErr.outOfFuel`
(resp. `PErr.outOfFuel`) marks fuel exhaustion and is proved unreachable at a
computable fuel bound, and `RErr.panicNoParent` (resp. `PErr.panicNoParent`)
models the `expect("... must have parent")` panics.  `IndexMap` is modelled as
an association list with first-match lookup and replace-or-append insertion.
-/

/-- One PEP 508 requirement: a package name, the list of extras activated on
it, and the rest of the specifier (version constraints and markers), opaque to
the resolver.  Mirrors `pep508_rs::Requirement` as used by `src/resolution.rs`
(the resolver only reads `name` and `extras` and otherwise copies the value
verbatim). -/
structure Requirement where
  name : String
  extras : List String
  rest : String
deriving DecidableEq, Repr

/-- One entry of the `[dependency-groups]` table: either a PEP 508 requirement
string or an `include-group` table.  Mirrors `DependencyGroupSpecifier` in
`src/lib.rs`. -/
inductive DependencyGroupSpecifier where
  | string (req : Requirement)
  | table (include_group : String)
deriving DecidableEq, Repr

/-- First-match lookup in an association list; models `IndexMap::get`. -/
def lookupR {α : Type} (R : List (String × α)) (k : String) : Option α :=
  (R.find? (fun kv => kv.1 == k)).map (fun kv => kv.2)

/-- Replace-or-append insertion; models `IndexMap::insert` (an existing key
keeps its position and gets the new value, a new key is appended). -/
def insertR {α : Type} (R : List (String × α)) (k : String) (v : α) : List (String × α) :=
  if (R.find? (fun kv => kv.1 == k)).isSome then
    R.map (fun kv => if kv.1 == k then (k, v) else kv)
  else
    R ++ [(k, v)]

/-- The keys of a table in order; models `IndexMap::keys`. -/
def keysOf {α : Type} (T : List (String × α)) : List String :=
  T.map (fun kv => kv.1)

/-- The self-reference test
`project_name.is_some_and(|project_name| project_name == requirement.name.to_string())`
shared by `src/resolution.rs` and the `parse` impls of the older revisions. -/
def pnameMatches (pname : Option String) (r : Requirement) : Bool :=
  match pname with
  | some n => n == r.name
  | none => false

/-- A separator character in the PEP 685 sense. -/
def isSep (c : Char) : Bool :=
  c == '.' || c == '_' || c == '-'

/-- A character allowed anywhere inside a PEP 508 extra name. -/
def isNameChar (c : Char) : Bool :=
  c.isAlphanum || isSep c

/-- Validity of an extra name per the PEP 508 name grammar enforced by
`pep508_rs::ExtraName::from_str`: nonempty, first and last characters
alphanumeric, every character alphanumeric or one of `.`, `_`, `-`. -/
def validExtraChars (l : List Char) : Bool :=
  !l.isEmpty && l.head?.all Char.isAlphanum && l.getLast?.all Char.isAlphanum
    && l.all isNameChar

/-- One pass of PEP 685 normalization: lower-case each ordinary character and
collapse every maximal run of separators to a single `-`.  The flag records
whether the previous character was a separator, so that only the first
separator of a run emits a `-`. -/
def pep685Aux (inRun : Bool) : List Char → List Char
  | [] => []
  | c :: rest =>
    if isSep c then
      if inRun then pep685Aux true rest else '-' :: pep685Aux true rest
    else c.toLower :: pep685Aux false rest

/-- The PEP 685 normal form of a character list; this is the string
`ExtraName::to_string` produces for a valid name. -/
def pep685Chars (l : List Char) : List Char :=
  pep685Aux false l

/-- Models `normalize_name` from `src/resolution.rs`:
`ExtraName::from_str(name).map(|e| e.to_string()).unwrap_or_else(|_| name.to_string())`.
`ExtraName::from_str` (external crate `pep508_rs`) succeeds exactly on valid
PEP 508 extra names and renders the PEP 685 normal form; on an invalid name
the fallback returns the input unchanged. -/
def normalize_name (s : String) : String :=
  if validExtraChars s.data then String.mk (pep685Chars s.data) else s

/-- Collapse every maximal separator run into one `-`, leaving other
characters alone (used by the spec-side normalizer below); the flag records
whether the previous character was a separator. -/
def collapseAux (inRun : Bool) : List Char → List Char
  | [] => []
  | c :: rest =>
    if isSep c then
      if inRun then collapseAux true rest else '-' :: collapseAux true rest
    else c :: collapseAux false rest

/-- Collapse every maximal separator run into one `-`. -/
def collapseRuns (l : List Char) : List Char :=
  collapseAux false l

/-- The spec's normalization rule, written exactly as the spec words it:
"lower-case, then collapse any maximal run of characters drawn from
`.`, `_`, `-` into a single `-`". -/
def specNormalize (s : String) : String :=
  String.mk (collapseRuns (s.data.map Char.toLower))

/-- A tagged reference on the ancestor stack: either an optional-dependency
extra or a dependency group.  Mirrors `Item` in `src/resolution.rs`. -/
inductive Item where
  | extra (name : String)
  | group (name : String)
deriving DecidableEq, Repr

/-- Outcomes of the current resolver (`ResolveErrorKind` in
`src/resolution.rs`), plus two embedding-only constructors: `panicNoParent`
models the `expect("missing optional dependency must have parent")` panics,
and `outOfFuel` marks exhaustion of the explicit fuel that replaces Rust's
unbounded recursion. -/
inductive RErr where
  | optionalDependencyNotFound (name : String) (includedBy : Item)
  | dependencyGroupNotFound (name : String) (includedBy : Item)
  | dependencyGroupCycle (parents : List Item)
  | panicNoParent
  | outOfFuel
deriving DecidableEq, Repr

/-- Memoisation map from group name to its resolved requirement list. -/
abbrev RMap := List (String × List Requirement)

/-- The table lookup of `resolve_optional_dependency`: find the first entry of
the optional-dependencies table whose key has the same PEP 685 normal form as
the requested extra. -/
def findNormalized (odT : RMap) (extra : String) : Option (List Requirement) :=
  ((odT.find? (fun kv => normalize_name kv.1 == normalize_name extra)).map
    (fun kv => kv.2))

/-- The inner loop of the self-reference branch: resolve each declared extra
in order with the callback `res` (threading the memo map) and concatenate the
resulting flat lists.  `res` is instantiated with the recursive call of
`resolveOD`. -/
def processExtras (res : String → RMap → Except RErr (List Requirement × RMap)) :
    List String → RMap → Except RErr (List Requirement × RMap)
  | [], R => .ok ([], R)
  | e :: es, R =>
    match res e R with
    | .error err => .error err
    | .ok (l, R1) =>
      match processExtras res es R1 with
      | .error err => .error err
      | .ok (ls, R2) => .ok (l ++ ls, R2)

/-- The entry loop of `resolve_optional_dependency`: a requirement whose name
equals the project name is replaced by the concatenation of its extras'
resolved lists, any other requirement is appended verbatim. -/
def processEntries (res : String → RMap → Except RErr (List Requirement × RMap))
    (pname : Option String) :
    List Requirement → RMap → Except RErr (List Requirement × RMap)
  | [], R => .ok ([], R)
  | req :: rest, R =>
    if pnameMatches pname req then
      match processExtras res req.extras R with
      | .error err => .error err
      | .ok (l1, R1) =>
        match processEntries res pname rest R1 with
        | .error err => .error err
        | .ok (l2, R2) => .ok (l1 ++ l2, R2)
    else
      match processEntries res pname rest R with
      | .error err => .error err
      | .ok (l2, R2) => .ok (req :: l2, R2)

/-- `resolve_optional_dependency` from `src/resolution.rs`, with fuel.  The
order of operations mirrors the source: memo check on the original spelling,
normalized table lookup (a miss reports the last ancestor, panicking when the
stack is empty), cycle check on the tagged spelling, then the entry loop,
finally inserting the result under the original spelling. -/
def resolveOD (odT : RMap) (pname : Option String) :
    Nat → String → RMap → List Item → Except RErr (List Requirement × RMap)
  | 0, _, _, _ => .error .outOfFuel
  | fuel + 1, extra, R, parents =>
    match lookupR R extra with
    | some reqs => .ok (reqs, R)
    | none =>
      match findNormalized odT extra with
      | none =>
        match parents.getLast? with
        | none => .error .panicNoParent
        | some p => .error (.optionalDependencyNotFound extra p)
      | some body =>
        if parents.contains (Item.extra extra) then
          .error (.dependencyGroupCycle parents)
        else
          match processEntries
              (fun e R' => resolveOD odT pname fuel e R' (parents ++ [Item.extra extra]))
              pname body R with
          | .error err => .error err
          | .ok (l, R') => .ok (l, insertR R' extra l)

/-- The dependency-groups table. -/
abbrev GTable := List (String × List DependencyGroupSpecifier)

/-- The entry loop of `resolve_dependency_group`: a `string` entry follows the
same self-reference rule as optional dependencies but resolves its extras
cross-table through `odc` (which only touches the optional-dependencies memo
map), and a `table` entry recurses into the named group through `dgc`. -/
def processDGEntries (odc : String → RMap → Except RErr (List Requirement × RMap))
    (dgc : String → RMap → RMap → Except RErr (List Requirement × RMap × RMap))
    (pname : Option String) :
    List DependencyGroupSpecifier → RMap → RMap → Except RErr (List Requirement × RMap × RMap)
  | [], ro, rg => .ok ([], ro, rg)
  | .string req :: rest, ro, rg =>
    if pnameMatches pname req then
      match processExtras odc req.extras ro with
      | .error err => .error err
      | .ok (l1, ro1) =>
        match processDGEntries odc dgc pname rest ro1 rg with
        | .error err => .error err
        | .ok (l2, ro2, rg2) => .ok (l1 ++ l2, ro2, rg2)
    else
      match processDGEntries odc dgc pname rest ro rg with
      | .error err => .error err
      | .ok (l2, ro2, rg2) => .ok (req :: l2, ro2, rg2)
  | .table g :: rest, ro, rg =>
    match dgc g ro rg with
    | .error err => .error err
    | .ok (l1, ro1, rg1) =>
      match processDGEntries odc dgc pname rest ro1 rg1 with
      | .error err => .error err
      | .ok (l2, ro2, rg2) => .ok (l1 ++ l2, ro2, rg2)

/-- `resolve_dependency_group` from `src/resolution.rs`, with fuel: memo check
on the dependency-groups memo map, exact table lookup (no normalization),
cycle check on the tagged group name, then the entry loop over the group's
specifiers, finally inserting the result. -/
def resolveDG (odT : RMap) (dgT : GTable) (pname : Option String) :
    Nat → String → RMap → RMap → List Item → Except RErr (List Requirement × RMap × RMap)
  | 0, _, _, _, _ => .error .outOfFuel
  | fuel + 1, g, ro, rg, parents =>
    match lookupR rg g with
    | some reqs => .ok (reqs, ro, rg)
    | none =>
      match lookupR dgT g with
      | none =>
        match parents.getLast? with
        | none => .error .panicNoParent
        | some p => .error (.dependencyGroupNotFound g p)
      | some body =>
        if parents.contains (Item.group g) then
          .error (.dependencyGroupCycle parents)
        else
          match processDGEntries
              (fun e R' => resolveOD odT pname fuel e R' (parents ++ [Item.group g]))
              (fun g' ro' rg' => resolveDG odT dgT pname fuel g' ro' rg' (parents ++ [Item.group g]))
              pname body ro rg with
          | .error err => .error err
          | .ok (l, ro', rg') => .ok (l, ro', insertR rg' g l)

/-- The first loop of `resolve`: resolve every key of the
optional-dependencies table in order, each with a fresh ancestor stack,
threading the memo map and discarding the returned lists. -/
def resolveAllOD (odT : RMap) (pname : Option String) (fuel : Nat) :
    List String → RMap → Except RErr RMap
  | [], R => .ok R
  | k :: ks, R =>
    match resolveOD odT pname fuel k R [] with
    | .error err => .error err
    | .ok (_, R') => resolveAllOD odT pname fuel ks R'

/-- The second loop of `resolve`: resolve every key of the dependency-groups
table in order, each with a fresh ancestor stack. -/
def resolveAllDG (odT : RMap) (dgT : GTable) (pname : Option String) (fuel : Nat) :
    List String → RMap → RMap → Except RErr (RMap × RMap)
  | [], ro, rg => .ok (ro, rg)
  | k :: ks, ro, rg =>
    match resolveDG odT dgT pname fuel k ro rg [] with
    | .error err => .error err
    | .ok (_, ro', rg') => resolveAllDG odT dgT pname fuel ks ro' rg'

/-- The two flat result maps; mirrors `ResolvedDependencies` in `src/lib.rs`. -/
structure ResolvedDependencies where
  optional_dependencies : RMap
  dependency_groups : RMap
deriving DecidableEq, Repr

/-- `resolve` from `src/resolution.rs` (the body of `PyProjectToml::resolve`):
resolve all optional dependencies first, then all dependency groups, the
latter falling back to an empty optional-dependencies table when that table is
absent. -/
def resolveFull (pname : Option String) (odT? : Option RMap) (dgT? : Option GTable)
    (fuel : Nat) : Except RErr ResolvedDependencies :=
  match (match odT? with
         | none => (.ok [] : Except RErr RMap)
         | some odT => resolveAllOD odT pname fuel (keysOf odT) []) with
  | .error err => .error err
  | .ok rOD =>
    match (match dgT? with
           | none => (.ok (rOD, []) : Except RErr (RMap × RMap))
           | some dgT => resolveAllDG (odT?.getD []) dgT pname fuel (keysOf dgT) rOD []) with
    | .error err => .error err
    | .ok (ro, rg) => .ok ⟨ro, rg⟩

/-- `Item` from `src/pep735_resolve.rs`: what a single entry parses to, either
a concrete requirement or a list of referenced group names. -/
inductive PItem where
  | requirement (r : Requirement)
  | groups (gs : List String)
deriving DecidableEq, Repr

/-- The `DependencyEntry` trait of `src/pep735_resolve.rs` as a record:
how to parse one entry, and the user-facing group and table names. -/
structure EntryImpl (T : Type) where
  parse : T → Option String → PItem
  groupName : String
  tableName : String

/-- `impl DependencyEntry for Requirement`: a requirement whose name equals
the project name denotes its list of extras, anything else is a concrete
requirement.  Group name "optional dependency group", table name
`project.optional-dependencies`. -/
def reqEntryImpl : EntryImpl Requirement where
  parse := fun r pname => if pnameMatches pname r then .groups r.extras else .requirement r
  groupName := "optional dependency group"
  tableName := "project.optional-dependencies"

/-- `impl DependencyEntry for DependencyGroupSpecifier`: a string entry is a
concrete requirement (self-references are not expanded by this impl), a table
entry references the named group.  Group name "dependency group", table name
`dependency-groups`. -/
def dgsEntryImpl : EntryImpl DependencyGroupSpecifier where
  parse := fun s _ =>
    match s with
    | .string r => .requirement r
    | .table g => .groups [g]
  groupName := "dependency group"
  tableName := "dependency-groups"

/-- Outcomes of the pep735 revision (`RecursionResolutionError`), plus the
embedding-only `panicNoParent` (the `expect("should have a parent")` panic)
and `outOfFuel`. -/
inductive PErr where
  | groupNotFound (kind : String) (name : String) (includedBy : String)
  | dependencyGroupCycle (tableName : String) (cycle : List String)
  | panicNoParent
  | outOfFuel
deriving DecidableEq, Repr

/-- `impl Display for Cycle` in `src/pep735_resolve.rs`: backtick-quote the
first ancestor, each further ancestor after an arrow, then repeat the first
ancestor; the empty cycle prints nothing. -/
def renderCycle735 (c : List String) : String :=
  match c with
  | [] => ""
  | first :: rest =>
    "`" ++ first ++ "`" ++ String.join (rest.map (fun g => " -> `" ++ g ++ "`"))
      ++ " -> `" ++ first ++ "`"

/-- The `thiserror` message formats of `RecursionResolutionError` in
`src/pep735_resolve.rs`.  The two embedding-only constructors render to
sentinel texts no Rust error produces. -/
def renderPErr : PErr → String
  | .groupNotFound kind name includedBy =>
    "Failed to find " ++ kind ++ " `" ++ name ++ "` included by `" ++ includedBy ++ "`"
  | .dependencyGroupCycle tableName cycle =>
    "Detected a cycle in `" ++ tableName ++ "`: " ++ renderCycle735 cycle
  | .panicNoParent => "panicked: should have a parent"
  | .outOfFuel => "embedding: out of fuel"

/-- The reference loop of `resolve_group`: resolve each referenced group with
the callback `res`, then extend the accumulator with that group's entry in the
memo map (`resolved.get(group).into_iter().flatten()` contributes nothing when
the entry is absent). -/
def processGroups735 (res : String → RMap → Except PErr RMap) :
    List String → List Requirement → RMap → Except PErr (List Requirement × RMap)
  | [], acc, R => .ok (acc, R)
  | g :: gs, acc, R =>
    match res g R with
    | .error err => .error err
    | .ok R' => processGroups735 res gs (acc ++ ((lookupR R' g).getD [])) R'

/-- The entry loop of `resolve_group`: parse each entry, appending a concrete
requirement to the accumulator and splicing referenced groups through
`processGroups735`. -/
def processItems735 {T : Type} (res : String → RMap → Except PErr RMap)
    (parseItem : T → PItem) :
    List T → List Requirement → RMap → Except PErr (List Requirement × RMap)
  | [], acc, R => .ok (acc, R)
  | it :: rest, acc, R =>
    match parseItem it with
    | .requirement r => processItems735 res parseItem rest (acc ++ [r]) R
    | .groups gs =>
      match processGroups735 res gs acc R with
      | .error err => .error err
      | .ok (acc', R') => processItems735 res parseItem rest acc' R'

/-- `resolve_group` from `src/pep735_resolve.rs`, with fuel.  The order of
operations mirrors the source and differs from the current resolver: exact
table lookup first (a miss reports the last ancestor, panicking on an empty
stack), cycle check, memo check, then the entry loop. -/
def resolveGroup735 {T : Type} (impl : EntryImpl T) (groups : List (String × List T))
    (pname : Option String) :
    Nat → String → RMap → List String → Except PErr RMap
  | 0, _, _, _ => .error .outOfFuel
  | fuel + 1, group, resolved, parents =>
    match lookupR groups group with
    | none =>
      match parents.getLast? with
      | none => .error .panicNoParent
      | some p => .error (.groupNotFound impl.groupName group p)
    | some items =>
      if parents.contains group then
        .error (.dependencyGroupCycle impl.tableName parents)
      else if (lookupR resolved group).isSome then
        .ok resolved
      else
        match processItems735
            (fun g R => resolveGroup735 impl groups pname fuel g R (parents ++ [group]))
            (fun it => impl.parse it pname) items [] resolved with
        | .error err => .error err
        | .ok (acc, R') => .ok (insertR R' group acc)

/-- The shared body of `DependencyGroups::resolve` and
`OptionalDependencies::resolve`: resolve every key in table order with a fresh
ancestor stack, threading the memo map, and return it. -/
def resolveTable735 {T : Type} (impl : EntryImpl T) (groups : List (String × List T))
    (pname : Option String) (fuel : Nat) : Except PErr RMap :=
  go (keysOf groups) []
where
  go : List String → RMap → Except PErr RMap
    | [], R => .ok R
    | k :: ks, R =>
      match resolveGroup735 impl groups pname fuel k R [] with
      | .error err => .error err
      | .ok R' => go ks R'

/-- `DependencyGroups::resolve` from `src/pep735_resolve.rs`. -/
def dgResolve735 (dgT : GTable) (pname : Option String) (fuel : Nat) : Except PErr RMap :=
  resolveTable735 dgsEntryImpl dgT pname fuel

/-- `OptionalDependencies::resolve` from `src/pep735_resolve.rs`. -/
def odResolve735 (odT : RMap) (pname : Option String) (fuel : Nat) : Except PErr RMap :=
  resolveTable735 reqEntryImpl odT pname fuel

/-- Modelled from the spec (§2, §4.2, §8 "Memoization correctness"): one step
of full naive re-expansion of a list of extras — resolve each extra and
concatenate, with no memoisation and no sharing.  `nOD` is the naive resolver
for a single extra. -/
def naiveExtras (nOD : String → Option (List Requirement)) :
    List String → Option (List Requirement)
  | [] => some []
  | e :: es =>
    match nOD e with
    | none => none
    | some l =>
      match naiveExtras nOD es with
      | none => none
      | some ls => some (l ++ ls)

/-- Modelled from the spec: naive expansion of an optional-dependencies group
body — a self-reference contributes the naive expansions of its extras in
declared order, any other requirement contributes itself. -/
def naiveEntries (nOD : String → Option (List Requirement)) (pname : Option String) :
    List Requirement → Option (List Requirement)
  | [] => some []
  | r :: rest =>
    if pnameMatches pname r then
      match naiveExtras nOD r.extras with
      | none => none
      | some l1 =>
        match naiveEntries nOD pname rest with
        | none => none
        | some l2 => some (l1 ++ l2)
    else
      match naiveEntries nOD pname rest with
      | none => none
      | some l2 => some (r :: l2)

/-- Modelled from the spec: full naive re-expansion of one optional-dependency
extra, with fuel (`none` on missing references or fuel exhaustion, so a
cyclic input has no value at any fuel). -/
def naiveOD (odT : RMap) (pname : Option String) : Nat → String → Option (List Requirement)
  | 0, _ => none
  | fuel + 1, s =>
    match findNormalized odT s with
    | none => none
    | some body => naiveEntries (naiveOD odT pname fuel) pname body

/-- Modelled from the spec: naive expansion of a dependency-group body;
`nOD` expands cross-table extras, `nDG` expands included groups. -/
def naiveDGEntries (nOD : String → Option (List Requirement))
    (nDG : String → Option (List Requirement)) (pname : Option String) :
    List DependencyGroupSpecifier → Option (List Requirement)
  | [] => some []
  | .string r :: rest =>
    if pnameMatches pname r then
      match naiveExtras nOD r.extras with
      | none => none
      | some l1 =>
        match naiveDGEntries nOD nDG pname rest with
        | none => none
        | some l2 => some (l1 ++ l2)
    else
      match naiveDGEntries nOD nDG pname rest with
      | none => none
      | some l2 => some (r :: l2)
  | .table g :: rest =>
    match nDG g with
    | none => none
    | some l1 =>
      match naiveDGEntries nOD nDG pname rest with
      | none => none
      | some l2 => some (l1 ++ l2)

/-- Modelled from the spec: full naive re-expansion of one dependency group,
with fuel. -/
def naiveDG (odT : RMap) (dgT : GTable) (pname : Option String) :
    Nat → String → Option (List Requirement)
  | 0, _ => none
  | fuel + 1, g =>
    match lookupR dgT g with
    | none => none
    | some body =>
      naiveDGEntries (naiveOD odT pname fuel) (naiveDG odT dgT pname fuel) pname body

/-- Every extra spelling the resolver can ever be asked to resolve: the
optional-dependencies keys, the extras of every requirement in that table, and
the extras of every requirement entry of the dependency-groups table. -/
def allExtras (odT : RMap) (dgT : GTable) : List String :=
  keysOf odT ++ odT.flatMap (fun kv => kv.2.flatMap (fun r => r.extras))
    ++ dgT.flatMap (fun kv => kv.2.flatMap (fun e =>
        match e with
        | .string r => r.extras
        | .table _ => []))

/-- Every group name a dependency-group entry can include. -/
def dgIncludes (dgT : GTable) : List String :=
  dgT.flatMap (fun kv => kv.2.filterMap (fun e =>
    match e with
    | .table g => some g
    | .string _ => none))

/-- Every tagged name that can ever be pushed on the ancestor stack. -/
def itemUniverse (odT : RMap) (dgT : GTable) : List Item :=
  (allExtras odT dgT).map Item.extra ++ (keysOf dgT ++ dgIncludes dgT).map Item.group

/-- A fuel budget sufficient for every resolution of the given tables: the
ancestor stack holds pairwise-distinct members of `itemUniverse`, so recursion
depth never exceeds its length. -/
def fuelBound (odT? : Option RMap) (dgT? : Option GTable) : Nat :=
  (itemUniverse (odT?.getD []) (dgT?.getD [])).length + 1

/-- The extras declared on self-referential requirements of the
optional-dependencies table. -/
def selfRefExtrasOD (pname : Option String) (odT : RMap) : List String :=
  odT.flatMap (fun kv => kv.2.flatMap (fun r =>
    if pnameMatches pname r then r.extras else []))

/-- The extras declared on self-referential requirement entries of the
dependency-groups table. -/
def selfRefExtrasDG (pname : Option String) (dgT : GTable) : List String :=
  dgT.flatMap (fun kv => kv.2.flatMap (fun e =>
    match e with
    | .string r => if pnameMatches pname r then r.extras else []
    | .table _ => []))

/-- The extra spellings the optional-dependencies resolver may be started on:
table keys, and self-referential extras from either table. -/
def odRefNames (pname : Option String) (odT : RMap) (dgT : GTable) : List String :=
  keysOf odT ++ selfRefExtrasOD pname odT ++ selfRefExtrasDG pname dgT

/-- The group names the dependency-groups resolver may be started on. -/
def dgRefNames (dgT : GTable) : List String :=
  keysOf dgT ++ dgIncludes dgT

/-- The rank of every extra referenced by a self-referential requirement of
this optional-dependencies body is below the rank of the spelling `s` that
reaches the body. -/
def odBodyOk (pname : Option String) (rank : Item → Nat) (s : String)
    (body : List Requirement) : Bool :=
  body.all (fun r => !pnameMatches pname r ||
    r.extras.all (fun e => decide (rank (Item.extra e) < rank (Item.extra s))))

/-- Every optional-dependency reference resolves and strictly decreases the
rank: the topological-order characterisation of "no missing references and no
cycles" on the optional-dependencies side. -/
def wfaOD (pname : Option String) (odT : RMap) (dgT : GTable) (rank : Item → Nat) : Bool :=
  (odRefNames pname odT dgT).all (fun s =>
    match findNormalized odT s with
    | none => false
    | some body => odBodyOk pname rank s body)

/-- Rank decrease for one dependency-group body. -/
def dgBodyOk (pname : Option String) (rank : Item → Nat) (g : String)
    (body : List DependencyGroupSpecifier) : Bool :=
  body.all (fun e =>
    match e with
    | .string r => !pnameMatches pname r ||
        r.extras.all (fun e2 => decide (rank (Item.extra e2) < rank (Item.group g)))
    | .table g2 => decide (rank (Item.group g2) < rank (Item.group g)))

/-- Every dependency-group reference resolves and strictly decreases the
rank. -/
def wfaDG (pname : Option String) (dgT : GTable) (rank : Item → Nat) : Bool :=
  (dgRefNames dgT).all (fun g =>
    match lookupR dgT g with
    | none => false
    | some body => dgBodyOk pname rank g body)

/-- Well-formed acyclic input: every reference present in its table, and a
rank function decreasing along every reference edge (the standard equivalent,
for finite graphs, of the reference graph being acyclic). -/
def wellFormedAcyclic (pname : Option String) (odT : RMap) (dgT : GTable)
    (rank : Item → Nat) : Bool :=
  wfaOD pname odT dgT rank && wfaDG pname dgT rank

/-- A resolved list is flat when it contains no self-reference entry (a
requirement whose name equals the project name). -/
def flatList (pname : Option String) (l : List Requirement) : Bool :=
  l.all (fun r => !pnameMatches pname r)

/-- The shape of the output of the extras loop: one resolved list per extra,
in declared order, concatenated; `F e l` says `l` is a valid resolved list for
extra `e`. -/
def extrasConcat (F : String → List Requirement → Prop) (es : List String)
    (out : List Requirement) : Prop :=
  ∃ ls, out = ls.flatten ∧ List.Forall₂ F es ls

/-- The shape of the output of the optional-dependencies entry loop: each
self-reference contributes its extras' concatenation, every other requirement
contributes itself. -/
def entriesOut (F : String → List Requirement → Prop) (pname : Option String) :
    List Requirement → List Requirement → Prop
  | [], out => out = []
  | req :: rest, out =>
    if pnameMatches pname req = true then
      ∃ l1 l2, out = l1 ++ l2 ∧ extrasConcat F req.extras l1 ∧ entriesOut F pname rest l2
    else
      ∃ l2, out = req :: l2 ∧ entriesOut F pname rest l2

/-- The shape of the output of the dependency-groups entry loop; `G g l` says
`l` is a valid resolved list for the included group `g`. -/
def dgEntriesOut (F : String → List Requirement → Prop)
    (G : String → List Requirement → Prop) (pname : Option String) :
    List DependencyGroupSpecifier → List Requirement → Prop
  | [], out => out = []
  | .string req :: rest, out =>
    if pnameMatches pname req = true then
      ∃ l1 l2, out = l1 ++ l2 ∧ extrasConcat F req.extras l1 ∧ dgEntriesOut F G pname rest l2
    else
      ∃ l2, out = req :: l2 ∧ dgEntriesOut F G pname rest l2
  | .table g :: rest, out =>
    ∃ l1 l2, out = l1 ++ l2 ∧ G g l1 ∧ dgEntriesOut F G pname rest l2

theorem isSep_toLower (c : Char) : isSep c.toLower = isSep c := by
  unfold Char.toLower
  simp only []
  by_cases h : c.toNat >= 65 ∧ c.toNat <= 90
  · rw [if_pos h]
    obtain ⟨h1, h2⟩ := h
    have hc : c = Char.ofNat c.toNat := (Char.ofNat_toNat c).symm
    conv_rhs => rw [hc]
    set n := c.toNat with hn
    interval_cases n <;> decide
  · rw [if_neg h]

theorem pep685Aux_eq (b : Bool) (l : List Char) :
    pep685Aux b l = collapseAux b (l.map Char.toLower) := by
  induction l generalizing b with
  | nil => rfl
  | cons c rest ih =>
    simp only [pep685Aux, List.map, collapseAux, isSep_toLower]
    cases h : isSep c with
    | true => cases b <;> simp [h, ih]
    | false => simp [h, ih]

theorem pep685Chars_eq (l : List Char) :
    pep685Chars l = collapseRuns (l.map Char.toLower) :=
  pep685Aux_eq false l

/-- Claim C7, amended.  `normalize_name` agrees with the spec's rule
(lower-case, then collapse each maximal run of `.`, `_`, `-` into one `-`)
exactly on valid PEP 508 extra names; an invalid name (one that is empty,
starts or ends with a separator, or contains a character outside the name
alphabet) is returned unchanged by the `unwrap_or_else` fallback rather than
normalized. -/
theorem claim_C7_amended :
    (∀ s : String, validExtraChars s.data = true → normalize_name s = specNormalize s) ∧
    (∀ s : String, validExtraChars s.data = false → normalize_name s = s) := by
  constructor
  · intro s h
    unfold normalize_name specNormalize
    rw [if_pos h, pep685Chars_eq]
  · intro s h
    unfold normalize_name
    rw [if_neg (by simp [h])]

/-- Witness for the amended C7 at concrete inputs: the valid name
`Group_Two` is normalized per the spec rule, and the invalid name `-a`
(leading separator) comes back unchanged. -/
theorem claim_C7_witness :
    normalize_name "Group_Two" = specNormalize "Group_Two" ∧ normalize_name "-a" = "-a" :=
  ⟨claim_C7_amended.1 "Group_Two" (by decide), claim_C7_amended.2 "-a" (by decide)⟩

/-- Counterexample to C7 as stated: on the input `_`, which is not a valid
extra name, `normalize_name` returns `_` unchanged while the claimed rule
(lower-case, collapse separator runs into `-`) produces `-`. -/
theorem claim_C7_counterexample :
    normalize_name "_" = "_" ∧ specNormalize "_" = "-" ∧ normalize_name "_" ≠ specNormalize "_" := by
  refine ⟨by decide, by decide, ?_⟩
  decide

theorem lookupR_cons {α : Type} (a : String) (b : α) (R : List (String × α)) (k : String) :
    lookupR ((a, b) :: R) k = if a == k then some b else lookupR R k := by
  by_cases h : (a == k) = true
  · simp [lookupR, List.find?_cons, h]
  · simp [lookupR, List.find?_cons, h]

theorem lookupR_map_replace_self {α : Type} (k : String) (v : α) :
    ∀ R : List (String × α),
      lookupR (R.map (fun kv => if kv.1 == k then (k, v) else kv)) k
        = (lookupR R k).map (fun _ => v)
  | [] => rfl
  | (a, b) :: R => by
    by_cases h : (a == k) = true
    · have hk : a = k := by simpa using h
      subst hk
      simp [List.map, h, lookupR_cons]
    · simp only [List.map, if_neg h, lookupR_cons, if_neg h]
      exact lookupR_map_replace_self k v R

theorem lookupR_map_replace_ne {α : Type} (k k' : String) (v : α) (hne : k' ≠ k) :
    ∀ R : List (String × α),
      lookupR (R.map (fun kv => if kv.1 == k then (k, v) else kv)) k' = lookupR R k'
  | [] => rfl
  | (a, b) :: R => by
    have hkk : (k == k') = false := beq_eq_false_iff_ne.mpr (Ne.symm hne)
    by_cases h : (a == k) = true
    · have hk : a = k := by simpa using h
      subst hk
      simp only [List.map, if_pos h, lookupR_cons, hkk, if_neg (by simp : ¬false = true)]
      exact lookupR_map_replace_ne a k' v hne R
    · simp only [List.map, if_neg h, lookupR_cons]
      by_cases h2 : (a == k') = true
      · rw [if_pos h2, if_pos h2]
      · rw [if_neg h2, if_neg h2]
        exact lookupR_map_replace_ne k k' v hne R

theorem lookupR_insertR_self {α : Type} (R : List (String × α)) (k : String) (v : α) :
    lookupR (insertR R k v) k = some v := by
  unfold insertR
  split
  · rename_i h
    rw [lookupR_map_replace_self]
    obtain ⟨kv0, hkv0⟩ := Option.isSome_iff_exists.mp h
    unfold lookupR
    rw [hkv0]
    rfl
  · unfold lookupR
    rw [List.find?_append]
    rename_i h
    rw [Option.not_isSome_iff_eq_none] at h
    rw [h]
    simp [List.find?_cons]

theorem lookupR_insertR_ne {α : Type} (R : List (String × α)) (k k' : String) (v : α)
    (h : k' ≠ k) : lookupR (insertR R k v) k' = lookupR R k' := by
  unfold insertR
  split
  · exact lookupR_map_replace_ne k k' v h R
  · unfold lookupR
    rw [List.find?_append]
    have h2 : List.find? (fun kv : String × α => kv.1 == k') [(k, v)] = none := by
      simp [List.find?_cons, beq_eq_false_iff_ne.mpr (Ne.symm h)]
    rw [h2, Option.or_none]

theorem lookupR_isSome_iff {α : Type} (R : List (String × α)) (k : String) :
    (lookupR R k).isSome = true ↔ k ∈ keysOf R := by
  unfold lookupR keysOf
  constructor
  · intro h
    have hfind : (List.find? (fun kv : String × α => kv.1 == k) R).isSome = true := by
      cases hf : List.find? (fun kv : String × α => kv.1 == k) R with
      | none => rw [hf] at h; simp at h
      | some kv => simp
    obtain ⟨kv, hmem, hk⟩ := List.find?_isSome.mp hfind
    exact List.mem_map.mpr ⟨kv, hmem, by simpa using hk⟩
  · intro hmem
    obtain ⟨kv, hmem, hk⟩ := List.mem_map.mp hmem
    have hfind : (List.find? (fun kv : String × α => kv.1 == k) R).isSome = true :=
      List.find?_isSome.mpr ⟨kv, hmem, by simpa using hk⟩
    cases hf : List.find? (fun kv : String × α => kv.1 == k) R with
    | none => rw [hf] at hfind; simp at hfind
    | some kv2 => simp

/-- Claim C6, amended.  `resolve()` performs no cross-table collision check: a
name defined as a key in both `project.optional-dependencies` and
`dependency-groups` is not rejected — each table's entry is resolved
independently from its own body (the fail-fast `NameCollision` error of the
claim exists only in later schema revisions, not in this code).  On the
repository's own `name_collision` test input, `dev` resolves to `pytest` in
the optional-dependencies result and to `ruff` in the dependency-groups
result. -/
theorem claim_C6_amended :
    resolveFull (some "spam") (some [("dev", [⟨"pytest", [], ""⟩])])
        (some [("dev", [.string ⟨"ruff", [], ""⟩])]) 10 =
      .ok ⟨[("dev", [⟨"pytest", [], ""⟩])], [("dev", [⟨"ruff", [], ""⟩])]⟩ := by
  rfl

/-- Counterexample to C6 as stated: on an input whose two tables share the key
`dev`, `resolve()` succeeds instead of failing fast with a collision error. -/
theorem claim_C6_counterexample :
    ∃ S, resolveFull (some "spam") (some [("dev", [⟨"pytest", [], ""⟩])])
        (some [("dev", [.string ⟨"ruff", [], ""⟩])]) 10 = .ok S :=
  ⟨_, rfl⟩

/-- Claim C3, amended.  When resolution revisits a name already on the
ancestor stack (the revision whose error text the claim quotes is
`src/pep735_resolve.rs`), the error carries the ancestor stack in discovery
order, and the rendered path is the ancestors followed by a repetition of the
FIRST ancestor — not of the revisited name `g`; the two coincide exactly when
the revisited name is the bottom of the stack, as in the claim's
`alpha`/`iota` example, whose resolution yields exactly the quoted text. -/
theorem claim_C3_amended :
    (∀ (T : Type) (impl : EntryImpl T) (groups : List (String × List T)) (pname : Option String)
        (fuel : Nat) (g : String) (R : RMap) (p0 : String) (rest : List String)
        (items : List T),
      lookupR groups g = some items → (p0 :: rest).contains g = true →
      resolveGroup735 impl groups pname (fuel + 1) g R (p0 :: rest) =
          .error (.dependencyGroupCycle impl.tableName (p0 :: rest)) ∧
        renderPErr (.dependencyGroupCycle impl.tableName (p0 :: rest)) =
          "Detected a cycle in `" ++ impl.tableName ++ "`: " ++ renderCycle735 (p0 :: rest) ∧
        renderCycle735 (p0 :: rest) =
          "`" ++ p0 ++ "`" ++ String.join (rest.map (fun q => " -> `" ++ q ++ "`"))
            ++ " -> `" ++ p0 ++ "`")
    ∧ dgsEntryImpl.tableName = "dependency-groups"
    ∧ (dgResolve735 [("alpha", [.table "iota"]), ("iota", [.table "alpha"])] none 8).mapError
        renderPErr =
      .error "Detected a cycle in `dependency-groups`: `alpha` -> `iota` -> `alpha`" := by
  refine ⟨?_, rfl, rfl⟩
  intro T impl groups pname fuel g R p0 rest items hlook hcont
  refine ⟨?_, rfl, rfl⟩
  simp only [resolveGroup735, hlook, hcont, if_pos]

/-- Counterexample to C3 as stated: for `alpha = [include iota]`,
`iota = [include iota]`, the revisit of `iota` happens with ancestors
`[alpha, iota]`, so the claim's rule (ancestors followed by the revisited
name) demands `... alpha -> iota -> iota`, but the code reports
`... alpha -> iota -> alpha`. -/
theorem claim_C3_counterexample :
    (dgResolve735 [("alpha", [.table "iota"]), ("iota", [.table "iota"])] none 8).mapError
        renderPErr =
      .error "Detected a cycle in `dependency-groups`: `alpha` -> `iota` -> `alpha`" ∧
    "Detected a cycle in `dependency-groups`: `alpha` -> `iota` -> `alpha`" ≠
      "Detected a cycle in `dependency-groups`: `alpha` -> `iota` -> `iota`" := by
  exact ⟨rfl, by decide⟩

/-- Witness for the amended C3 at a concrete input: revisiting `g` with
ancestor stack `[a, g]` yields the cycle error carrying that stack. -/
theorem claim_C3_witness :
    resolveGroup735 dgsEntryImpl [("g", ([] : List DependencyGroupSpecifier))] none 6 "g" []
        ["a", "g"] =
      .error (.dependencyGroupCycle "dependency-groups" ["a", "g"]) :=
  (claim_C3_amended.1 DependencyGroupSpecifier dgsEntryImpl [("g", [])] none 5 "g" [] "a" ["g"]
    [] rfl rfl).1

/-- Claim C4: a reference to a group absent from its table fails with exactly
`Failed to find {group_kind} `{missing}` included by `{referrer}``, where the
group kind is "optional dependency group" for the optional-dependencies table
and "dependency group" for the dependency-groups table, the missing name is
echoed as referenced, and the referrer is the top (last element) of the
ancestor stack.  Stated over `resolve_group` of `src/pep735_resolve.rs`, whose
`thiserror` format the claim quotes, plus the two end-to-end messages from the
repository's own tests. -/
theorem claim_C4 :
    (∀ (T : Type) (impl : EntryImpl T) (groups : List (String × List T)) (pname : Option String)
        (fuel : Nat) (g : String) (R : RMap) (parents : List String) (p : String),
      lookupR groups g = none → parents.getLast? = some p →
      resolveGroup735 impl groups pname (fuel + 1) g R parents =
          .error (.groupNotFound impl.groupName g p) ∧
        renderPErr (.groupNotFound impl.groupName g p) =
          "Failed to find " ++ impl.groupName ++ " `" ++ g ++ "` included by `" ++ p ++ "`")
    ∧ reqEntryImpl.groupName = "optional dependency group"
    ∧ dgsEntryImpl.groupName = "dependency group"
    ∧ (dgResolve735 [("iota", [.table "alpha"])] none 8).mapError renderPErr =
        .error "Failed to find dependency group `alpha` included by `iota`"
    ∧ (odResolve735 [("iota", [⟨"spam", ["alpha"], ""⟩])] (some "spam") 8).mapError renderPErr =
        .error "Failed to find optional dependency group `alpha` included by `iota`" := by
  refine ⟨?_, rfl, rfl, rfl, rfl⟩
  intro T impl groups pname fuel g R parents p hlook hlast
  constructor
  · simp only [resolveGroup735, hlook, hlast]
  · simp [renderPErr, String.append_assoc]

/-- Witness for C4 at a concrete input: looking up a group missing from an
empty dependency-groups table with ancestor stack `[iota]` reports `iota` as
the referrer under kind "dependency group". -/
theorem claim_C4_witness :
    resolveGroup735 dgsEntryImpl ([] : GTable) none 4 "x" [] ["iota"] =
      .error (.groupNotFound "dependency group" "x" "iota") :=
  (claim_C4.1 DependencyGroupSpecifier dgsEntryImpl [] none 3 "x" [] ["iota"] "iota" rfl rfl).1

/-- Claim C1: in the entry loop of `resolve_optional_dependency`, a plain
requirement whose name equals the set project name is replaced by the
concatenation, in declared-extras order, of the flat lists obtained by
resolving each extra (threading the memo map left to right); any other
requirement — different name, or no project name — is appended verbatim.  On
the claim's example (project `spam`, `alpha = [beta, gamma, delta]`,
`iota = [spam[alpha]]`) the resolved list for `iota` is
`[beta, gamma, delta]`. -/
theorem claim_C1 :
    (∀ (c : String → RMap → Except RErr (List Requirement × RMap)) (pname : Option String)
        (n : String) (req : Requirement) (rest : List Requirement) (R R1 R2 : RMap)
        (l1 l2 : List Requirement),
      pname = some n → req.name = n →
      processExtras c req.extras R = .ok (l1, R1) →
      processEntries c pname rest R1 = .ok (l2, R2) →
      processEntries c pname (req :: rest) R = .ok (l1 ++ l2, R2))
    ∧ (∀ (c : String → RMap → Except RErr (List Requirement × RMap)) (e : String)
        (es : List String) (R R1 R2 : RMap) (l1 l2 : List Requirement),
      c e R = .ok (l1, R1) → processExtras c es R1 = .ok (l2, R2) →
      processExtras c (e :: es) R = .ok (l1 ++ l2, R2))
    ∧ (∀ (c : String → RMap → Except RErr (List Requirement × RMap)) (pname : Option String)
        (req : Requirement) (rest : List Requirement) (R R2 : RMap) (l2 : List Requirement),
      pnameMatches pname req = false →
      processEntries c pname rest R = .ok (l2, R2) →
      processEntries c pname (req :: rest) R = .ok (req :: l2, R2))
    ∧ resolveFull (some "spam")
        (some [("alpha", [⟨"beta", [], ""⟩, ⟨"gamma", [], ""⟩, ⟨"delta", [], ""⟩]),
               ("iota", [⟨"spam", ["alpha"], ""⟩])]) none 10 =
      .ok ⟨[("alpha", [⟨"beta", [], ""⟩, ⟨"gamma", [], ""⟩, ⟨"delta", [], ""⟩]),
            ("iota", [⟨"beta", [], ""⟩, ⟨"gamma", [], ""⟩, ⟨"delta", [], ""⟩])], []⟩ := by
  refine ⟨?_, ?_, ?_, rfl⟩
  · intro c pname n req rest R R1 R2 l1 l2 hpn hname hex hrest
    have hm : pnameMatches pname req = true := by
      subst hpn
      simp [pnameMatches, hname]
    simp only [processEntries, if_pos hm, hex, hrest]
  · intro c e es R R1 R2 l1 l2 hc hes
    simp only [processExtras, hc, hes]
  · intro c pname req rest R R2 l2 hm hrest
    simp [processEntries, hm, hrest]

/-- Witness for C1 at a concrete input: a requirement on a foreign package is
appended verbatim by the entry loop. -/
theorem claim_C1_witness :
    processEntries (fun _ R => .ok ([], R)) none [⟨"httpx", [], ""⟩] [] =
      .ok ([⟨"httpx", [], ""⟩], []) :=
  claim_C1.2.2.1 (fun _ R => .ok ([], R)) none ⟨"httpx", [], ""⟩ [] [] [] [] rfl rfl

/-- Claim C10: a plain requirement whose name equals the set project name but
whose extras list is empty contributes nothing — the entry loop of either
table drops it silently, with no literal requirement kept and no error, and on
a whole-table run the group resolves to the empty list. -/
theorem claim_C10 :
    (∀ (c : String → RMap → Except RErr (List Requirement × RMap)) (pname : Option String)
        (n : String) (req : Requirement) (rest : List Requirement) (R : RMap),
      pname = some n → req.name = n → req.extras = [] →
      processEntries c pname (req :: rest) R = processEntries c pname rest R)
    ∧ (∀ (odc : String → RMap → Except RErr (List Requirement × RMap))
        (dgc : String → RMap → RMap → Except RErr (List Requirement × RMap × RMap))
        (pname : Option String) (n : String) (req : Requirement)
        (rest : List DependencyGroupSpecifier) (ro rg : RMap),
      pname = some n → req.name = n → req.extras = [] →
      processDGEntries odc dgc pname (.string req :: rest) ro rg =
        processDGEntries odc dgc pname rest ro rg)
    ∧ resolveFull (some "spam") (some [("iota", [⟨"spam", [], ""⟩])]) none 10 =
      .ok ⟨[("iota", [])], []⟩ := by
  refine ⟨?_, ?_, rfl⟩
  · intro c pname n req rest R hpn hname hextras
    have hm : pnameMatches pname req = true := by
      subst hpn
      simp [pnameMatches, hname]
    simp only [processEntries, if_pos hm, hextras, processExtras]
    cases hrest : processEntries c pname rest R with
    | error e => rfl
    | ok p => simp
  · intro odc dgc pname n req rest ro rg hpn hname hextras
    have hm : pnameMatches pname req = true := by
      subst hpn
      simp [pnameMatches, hname]
    simp only [processDGEntries, if_pos hm, hextras, processExtras]
    cases hrest : processDGEntries odc dgc pname rest ro rg with
    | error e => rfl
    | ok p => simp

/-- Witness for C10 at a concrete input: the self-referential entry `spam`
with no extras is dropped by the entry loop. -/
theorem claim_C10_witness :
    processEntries (fun _ R => .ok ([], R)) (some "spam") [⟨"spam", [], ""⟩] [] =
      processEntries (fun _ R => .ok ([], R)) (some "spam") ([] : List Requirement) [] :=
  claim_C10.1 (fun _ R => .ok ([], R)) (some "spam") "spam" ⟨"spam", [], ""⟩ [] [] rfl rfl rfl

theorem processExtras_ne_err (c : String → RMap → Except RErr (List Requirement × RMap))
    (bad : RErr) :
    ∀ (es : List String) (R : RMap), (∀ e ∈ es, ∀ R', c e R' ≠ .error bad) →
      processExtras c es R ≠ .error bad
  | [], R, h => by simp [processExtras]
  | e :: es, R, h => by
    cases hc : c e R with
    | error err =>
      simp only [processExtras, hc]
      intro hcontra
      have herr : err = bad := by simpa using hcontra
      rw [herr] at hc
      exact h e (List.mem_cons_self e es) R hc
    | ok p =>
      obtain ⟨l, R1⟩ := p
      cases hre : processExtras c es R1 with
      | error err2 =>
        simp only [processExtras, hc, hre]
        intro hcontra
        have herr : err2 = bad := by simpa using hcontra
        rw [herr] at hre
        exact processExtras_ne_err c bad es R1
          (fun e' he' => h e' (List.mem_cons_of_mem e he')) hre
      | ok p2 =>
        obtain ⟨l2, R2⟩ := p2
        simp [processExtras, hc, hre]

theorem processEntries_ne_err (c : String → RMap → Except RErr (List Requirement × RMap))
    (bad : RErr) (pname : Option String) :
    ∀ (entries : List Requirement) (R : RMap),
      (∀ req ∈ entries, pnameMatches pname req = true → ∀ e ∈ req.extras, ∀ R',
        c e R' ≠ .error bad) →
      processEntries c pname entries R ≠ .error bad
  | [], R, h => by simp [processEntries]
  | req :: rest, R, h => by
    by_cases hm : pnameMatches pname req = true
    · cases hex : processExtras c req.extras R with
      | error err =>
        simp only [processEntries, if_pos hm, hex]
        intro hcontra
        have herr : err = bad := by simpa using hcontra
        rw [herr] at hex
        exact processExtras_ne_err c bad req.extras R
          (fun e he => h req (List.mem_cons_self req rest) hm e he) hex
      | ok p =>
        obtain ⟨l1, R1⟩ := p
        cases hre : processEntries c pname rest R1 with
        | error err2 =>
          simp only [processEntries, if_pos hm, hex, hre]
          intro hcontra
          have herr : err2 = bad := by simpa using hcontra
          rw [herr] at hre
          exact processEntries_ne_err c bad pname rest R1
            (fun r hr => h r (List.mem_cons_of_mem req hr)) hre
        | ok p2 =>
          obtain ⟨l2, R2⟩ := p2
          simp [processEntries, if_pos hm, hex, hre]
    · cases hre : processEntries c pname rest R with
      | error err2 =>
        simp only [processEntries, if_neg hm, hre]
        intro hcontra
        have herr : err2 = bad := by simpa using hcontra
        rw [herr] at hre
        exact processEntries_ne_err c bad pname rest R
          (fun r hr => h r (List.mem_cons_of_mem req hr)) hre
      | ok p2 =>
        obtain ⟨l2, R2⟩ := p2
        simp [processEntries, if_neg hm, hre]

theorem processDGEntries_ne_err
    (odc : String → RMap → Except RErr (List Requirement × RMap))
    (dgc : String → RMap → RMap → Except RErr (List Requirement × RMap × RMap))
    (bad : RErr) (pname : Option String) :
    ∀ (entries : List DependencyGroupSpecifier) (ro rg : RMap),
      (∀ req : Requirement, .string req ∈ entries → pnameMatches pname req = true →
        ∀ e ∈ req.extras, ∀ R', odc e R' ≠ .error bad) →
      (∀ g : String, .table g ∈ entries → ∀ ro' rg', dgc g ro' rg' ≠ .error bad) →
      processDGEntries odc dgc pname entries ro rg ≠ .error bad
  | [], ro, rg, hodc, hdgc => by simp [processDGEntries]
  | .string req :: rest, ro, rg, hodc, hdgc => by
    by_cases hm : pnameMatches pname req = true
    · cases hex : processExtras odc req.extras ro with
      | error err =>
        simp only [processDGEntries, if_pos hm, hex]
        intro hcontra
        have herr : err = bad := by simpa using hcontra
        rw [herr] at hex
        exact processExtras_ne_err odc bad req.extras ro
          (fun e he => hodc req (List.mem_cons_self _ rest) hm e he) hex
      | ok p =>
        obtain ⟨l1, ro1⟩ := p
        cases hre : processDGEntries odc dgc pname rest ro1 rg with
        | error err2 =>
          simp only [processDGEntries, if_pos hm, hex, hre]
          intro hcontra
          have herr : err2 = bad := by simpa using hcontra
          rw [herr] at hre
          exact processDGEntries_ne_err odc dgc bad pname rest ro1 rg
            (fun r hr => hodc r (List.mem_cons_of_mem _ hr))
            (fun g hg => hdgc g (List.mem_cons_of_mem _ hg)) hre
        | ok p2 =>
          obtain ⟨l2, ro2, rg2⟩ := p2
          simp [processDGEntries, if_pos hm, hex, hre]
    · cases hre : processDGEntries odc dgc pname rest ro rg with
      | error err2 =>
        simp only [processDGEntries, if_neg hm, hre]
        intro hcontra
        have herr : err2 = bad := by simpa using hcontra
        rw [herr] at hre
        exact processDGEntries_ne_err odc dgc bad pname rest ro rg
          (fun r hr => hodc r (List.mem_cons_of_mem _ hr))
          (fun g hg => hdgc g (List.mem_cons_of_mem _ hg)) hre
      | ok p2 =>
        obtain ⟨l2, ro2, rg2⟩ := p2
        simp [processDGEntries, if_neg hm, hre]
  | .table g :: rest, ro, rg, hodc, hdgc => by
    cases hg : dgc g ro rg with
    | error err =>
      simp only [processDGEntries, hg]
      intro hcontra
      have herr : err = bad := by simpa using hcontra
      rw [herr] at hg
      exact hdgc g (List.mem_cons_self _ rest) ro rg hg
    | ok p =>
      obtain ⟨l1, ro1, rg1⟩ := p
      cases hre : processDGEntries odc dgc pname rest ro1 rg1 with
      | error err2 =>
        simp only [processDGEntries, hg, hre]
        intro hcontra
        have herr : err2 = bad := by simpa using hcontra
        rw [herr] at hre
        exact processDGEntries_ne_err odc dgc bad pname rest ro1 rg1
          (fun r hr => hodc r (List.mem_cons_of_mem _ hr))
          (fun g2 hg2 => hdgc g2 (List.mem_cons_of_mem _ hg2)) hre
      | ok p2 =>
        obtain ⟨l2, ro2, rg2⟩ := p2
        simp [processDGEntries, hg, hre]

theorem findNormalized_of_key (odT : RMap) (k : String) (h : k ∈ keysOf odT) :
    (findNormalized odT k).isSome = true := by
  unfold findNormalized
  obtain ⟨kv, hmem, hk⟩ := List.mem_map.mp h
  have hfind : (List.find? (fun kv : String × List Requirement =>
      normalize_name kv.1 == normalize_name k) odT).isSome = true :=
    List.find?_isSome.mpr ⟨kv, hmem, by rw [hk]; simp⟩
  cases hf : List.find? (fun kv : String × List Requirement =>
      normalize_name kv.1 == normalize_name k) odT with
  | none => rw [hf] at hfind; simp at hfind
  | some kv2 => simp

theorem resolveOD_ne_panic (odT : RMap) (pname : Option String) :
    ∀ (fuel : Nat) (extra : String) (R : RMap) (parents : List Item),
      (parents ≠ [] ∨ (findNormalized odT extra).isSome = true) →
      resolveOD odT pname fuel extra R parents ≠ .error .panicNoParent
  | 0, extra, R, parents, _ => by simp [resolveOD]
  | fuel + 1, extra, R, parents, h => by
    cases hm : lookupR R extra with
    | some reqs => simp [resolveOD, hm]
    | none =>
      cases hf : findNormalized odT extra with
      | none =>
        have hp : parents ≠ [] := by
          rcases h with h | h
          · exact h
          · rw [hf] at h
            simp at h
        cases hl : parents.getLast? with
        | none => exact absurd (List.getLast?_eq_none_iff.mp hl) hp
        | some p => simp [resolveOD, hm, hf, hl]
      | some body =>
        by_cases hc : Item.extra extra ∈ parents
        · simp [resolveOD, hm, hf, hc]
        · cases hpe : processEntries
              (fun e R' => resolveOD odT pname fuel e R' (parents ++ [Item.extra extra]))
              pname body R with
          | error err =>
            simp only [resolveOD, hm, hf, hpe]
            rw [if_neg (by simpa using hc)]
            intro hcontra
            have herr : err = RErr.panicNoParent := by simpa using hcontra
            rw [herr] at hpe
            exact processEntries_ne_err _ .panicNoParent pname body R
              (fun req _ _ e _ R' =>
                resolveOD_ne_panic odT pname fuel e R' (parents ++ [Item.extra extra])
                  (Or.inl (by simp)))
              hpe
          | ok p =>
            obtain ⟨l, R'⟩ := p
            simp only [resolveOD, hm, hf, hpe]
            rw [if_neg (by simpa using hc)]
            simp

theorem resolveDG_ne_panic (odT : RMap) (dgT : GTable) (pname : Option String) :
    ∀ (fuel : Nat) (g : String) (ro rg : RMap) (parents : List Item),
      (parents ≠ [] ∨ (lookupR dgT g).isSome = true) →
      resolveDG odT dgT pname fuel g ro rg parents ≠ .error .panicNoParent
  | 0, g, ro, rg, parents, _ => by simp [resolveDG]
  | fuel + 1, g, ro, rg, parents, h => by
    cases hm : lookupR rg g with
    | some reqs => simp [resolveDG, hm]
    | none =>
      cases hf : lookupR dgT g with
      | none =>
        have hp : parents ≠ [] := by
          rcases h with h | h
          · exact h
          · rw [hf] at h
            simp at h
        cases hl : parents.getLast? with
        | none => exact absurd (List.getLast?_eq_none_iff.mp hl) hp
        | some p => simp [resolveDG, hm, hf, hl]
      | some body =>
        by_cases hc : Item.group g ∈ parents
        · simp [resolveDG, hm, hf, hc]
        · cases hpe : processDGEntries
              (fun e R' => resolveOD odT pname fuel e R' (parents ++ [Item.group g]))
              (fun g' ro' rg' => resolveDG odT dgT pname fuel g' ro' rg' (parents ++ [Item.group g]))
              pname body ro rg with
          | error err =>
            simp only [resolveDG, hm, hf, hpe]
            rw [if_neg (by simpa using hc)]
            intro hcontra
            have herr : err = RErr.panicNoParent := by simpa using hcontra
            rw [herr] at hpe
            exact processDGEntries_ne_err _ _ .panicNoParent pname body ro rg
              (fun req _ _ e _ R' =>
                resolveOD_ne_panic odT pname fuel e R' (parents ++ [Item.group g])
                  (Or.inl (by simp)))
              (fun g' _ ro' rg' =>
                resolveDG_ne_panic odT dgT pname fuel g' ro' rg' (parents ++ [Item.group g])
                  (Or.inl (by simp)))
              hpe
          | ok p =>
            obtain ⟨l, ro', rg'⟩ := p
            simp only [resolveDG, hm, hf, hpe]
            rw [if_neg (by simpa using hc)]
            simp

theorem resolveAllOD_ne_panic (odT : RMap) (pname : Option String) (fuel : Nat) :
    ∀ (ks : List String) (R : RMap), (∀ k ∈ ks, k ∈ keysOf odT) →
      resolveAllOD odT pname fuel ks R ≠ .error .panicNoParent
  | [], R, _ => by simp [resolveAllOD]
  | k :: ks, R, h => by
    cases hk : resolveOD odT pname fuel k R [] with
    | error err =>
      simp only [resolveAllOD, hk]
      intro hcontra
      have herr : err = RErr.panicNoParent := by simpa using hcontra
      rw [herr] at hk
      exact resolveOD_ne_panic odT pname fuel k R []
        (Or.inr (findNormalized_of_key odT k (h k (List.mem_cons_self k ks)))) hk
    | ok p =>
      obtain ⟨l, R'⟩ := p
      simp only [resolveAllOD, hk]
      exact resolveAllOD_ne_panic odT pname fuel ks R'
        (fun k' hk' => h k' (List.mem_cons_of_mem k hk'))

theorem resolveAllDG_ne_panic (odT : RMap) (dgT : GTable) (pname : Option String) (fuel : Nat) :
    ∀ (ks : List String) (ro rg : RMap), (∀ k ∈ ks, k ∈ keysOf dgT) →
      resolveAllDG odT dgT pname fuel ks ro rg ≠ .error .panicNoParent
  | [], ro, rg, _ => by simp [resolveAllDG]
  | k :: ks, ro, rg, h => by
    cases hk : resolveDG odT dgT pname fuel k ro rg [] with
    | error err =>
      simp only [resolveAllDG, hk]
      intro hcontra
      have herr : err = RErr.panicNoParent := by simpa using hcontra
      rw [herr] at hk
      have hsome : (lookupR dgT k).isSome = true :=
        (lookupR_isSome_iff dgT k).mpr (h k (List.mem_cons_self k ks))
      exact resolveDG_ne_panic odT dgT pname fuel k ro rg [] (Or.inr hsome) hk
    | ok p =>
      obtain ⟨l, ro', rg'⟩ := p
      simp only [resolveAllDG, hk]
      exact resolveAllDG_ne_panic odT dgT pname fuel ks ro' rg'
        (fun k' hk' => h k' (List.mem_cons_of_mem k hk'))

/-- Claim C9: the `expect("... must have parent")` panics of `resolve()` are
unreachable from the public entry point, for every input and every fuel: each
top-level lookup is for a key of its own table and therefore succeeds, and
every recursive lookup runs with a nonempty ancestor stack, so a failed lookup
always has a parent to report. -/
theorem claim_C9 :
    ∀ (pname : Option String) (odT? : Option RMap) (dgT? : Option GTable) (fuel : Nat),
      resolveFull pname odT? dgT? fuel ≠ .error .panicNoParent := by
  intro pname odT? dgT? fuel
  unfold resolveFull
  cases odT? with
  | none =>
    simp only [Option.getD]
    cases dgT? with
    | none => simp
    | some dgT =>
      cases hdg : resolveAllDG [] dgT pname fuel (keysOf dgT) [] [] with
      | error err =>
        simp only [hdg]
        intro hcontra
        have herr : err = RErr.panicNoParent := by simpa using hcontra
        rw [herr] at hdg
        exact resolveAllDG_ne_panic [] dgT pname fuel (keysOf dgT) [] [] (fun k hk => hk) hdg
      | ok p =>
        obtain ⟨ro, rg⟩ := p
        simp [hdg]
  | some odT =>
    cases hod : resolveAllOD odT pname fuel (keysOf odT) [] with
    | error err =>
      simp only [hod]
      intro hcontra
      have herr : err = RErr.panicNoParent := by simpa using hcontra
      rw [herr] at hod
      exact resolveAllOD_ne_panic odT pname fuel (keysOf odT) [] (fun k hk => hk) hod
    | ok rOD =>
      simp only [hod]
      cases dgT? with
      | none => simp
      | some dgT =>
        simp only [Option.getD]
        cases hdg : resolveAllDG odT dgT pname fuel (keysOf dgT) rOD [] with
        | error err =>
          simp only [hdg]
          intro hcontra
          have herr : err = RErr.panicNoParent := by simpa using hcontra
          rw [herr] at hdg
          exact resolveAllDG_ne_panic odT dgT pname fuel (keysOf dgT) rOD []
            (fun k hk => hk) hdg
        | ok p =>
          obtain ⟨ro, rg⟩ := p
          simp [hdg]

theorem processExtras_ok_ind (c : String → RMap → Except RErr (List Requirement × RMap))
    (Q : RMap → Prop) (F : String → List Requirement → Prop)
    (hc : ∀ e R l R', Q R → c e R = .ok (l, R') → Q R' ∧ F e l) :
    ∀ (es : List String) (R : RMap) (l : List Requirement) (R' : RMap),
      Q R → processExtras c es R = .ok (l, R') → Q R' ∧ extrasConcat F es l
  | [], R, l, R', hQ, h => by
    simp only [processExtras, Except.ok.injEq, Prod.mk.injEq] at h
    obtain ⟨h1, h2⟩ := h
    subst h1
    subst h2
    exact ⟨hQ, [], rfl, List.Forall₂.nil⟩
  | e :: es, R, l, R', hQ, h => by
    cases hce : c e R with
    | error err => simp only [processExtras, hce] at h; exact Except.noConfusion h
    | ok p =>
      obtain ⟨l1, R1⟩ := p
      cases hre : processExtras c es R1 with
      | error err2 => simp only [processExtras, hce, hre] at h; exact Except.noConfusion h
      | ok p2 =>
        obtain ⟨l2, R2⟩ := p2
        simp only [processExtras, hce, hre, Except.ok.injEq, Prod.mk.injEq] at h
        obtain ⟨h1, h2⟩ := h
        subst h1
        subst h2
        obtain ⟨hQ1, hF1⟩ := hc e R l1 R1 hQ hce
        obtain ⟨hQ2, ls, hflat, hfa⟩ := processExtras_ok_ind c Q F hc es R1 l2 _ hQ1 hre
        exact ⟨hQ2, l1 :: ls, by simp [hflat], List.Forall₂.cons hF1 hfa⟩

theorem processEntries_ok_ind (c : String → RMap → Except RErr (List Requirement × RMap))
    (Q : RMap → Prop) (F : String → List Requirement → Prop) (pname : Option String)
    (hc : ∀ e R l R', Q R → c e R = .ok (l, R') → Q R' ∧ F e l) :
    ∀ (entries : List Requirement) (R : RMap) (l : List Requirement) (R' : RMap),
      Q R → processEntries c pname entries R = .ok (l, R') → Q R' ∧ entriesOut F pname entries l
  | [], R, l, R', hQ, h => by
    simp only [processEntries, Except.ok.injEq, Prod.mk.injEq] at h
    obtain ⟨h1, h2⟩ := h
    subst h1
    subst h2
    exact ⟨hQ, rfl⟩
  | req :: rest, R, l, R', hQ, h => by
    by_cases hm : pnameMatches pname req = true
    · cases hex : processExtras c req.extras R with
      | error err => simp only [processEntries, if_pos hm, hex] at h; exact Except.noConfusion h
      | ok p =>
        obtain ⟨l1, R1⟩ := p
        cases hre : processEntries c pname rest R1 with
        | error err2 => simp only [processEntries, if_pos hm, hex, hre] at h; exact Except.noConfusion h
        | ok p2 =>
          obtain ⟨l2, R2⟩ := p2
          simp only [processEntries, if_pos hm, hex, hre, Except.ok.injEq, Prod.mk.injEq] at h
          obtain ⟨h1, h2⟩ := h
          subst h1
          subst h2
          obtain ⟨hQ1, hex1⟩ := processExtras_ok_ind c Q F hc req.extras R l1 _ hQ hex
          obtain ⟨hQ2, hout⟩ := processEntries_ok_ind c Q F pname hc rest R1 l2 _ hQ1 hre
          exact ⟨hQ2, by rw [entriesOut, if_pos hm]; exact ⟨l1, l2, rfl, hex1, hout⟩⟩
    · cases hre : processEntries c pname rest R with
      | error err2 => simp only [processEntries, if_neg hm, hre] at h; exact Except.noConfusion h
      | ok p2 =>
        obtain ⟨l2, R2⟩ := p2
        simp only [processEntries, if_neg hm, hre, Except.ok.injEq, Prod.mk.injEq] at h
        obtain ⟨h1, h2⟩ := h
        subst h1
        subst h2
        obtain ⟨hQ2, hout⟩ := processEntries_ok_ind c Q F pname hc rest R l2 _ hQ hre
        exact ⟨hQ2, by rw [entriesOut, if_neg hm]; exact ⟨l2, rfl, hout⟩⟩

theorem processDGEntries_ok_ind
    (odc : String → RMap → Except RErr (List Requirement × RMap))
    (dgc : String → RMap → RMap → Except RErr (List Requirement × RMap × RMap))
    (Q : RMap → RMap → Prop) (F : String → List Requirement → Prop)
    (G : String → List Requirement → Prop) (pname : Option String)
    (hodc : ∀ e ro l ro' rg, Q ro rg → odc e ro = .ok (l, ro') → Q ro' rg ∧ F e l)
    (hdgc : ∀ g ro rg l ro' rg', Q ro rg → dgc g ro rg = .ok (l, ro', rg') →
      Q ro' rg' ∧ G g l) :
    ∀ (entries : List DependencyGroupSpecifier) (ro rg : RMap) (l : List Requirement)
      (ro' rg' : RMap),
      Q ro rg → processDGEntries odc dgc pname entries ro rg = .ok (l, ro', rg') →
      Q ro' rg' ∧ dgEntriesOut F G pname entries l
  | [], ro, rg, l, ro', rg', hQ, h => by
    simp only [processDGEntries, Except.ok.injEq, Prod.mk.injEq] at h
    obtain ⟨h1, h2, h3⟩ := h
    subst h1
    subst h2
    subst h3
    exact ⟨hQ, rfl⟩
  | .string req :: rest, ro, rg, l, ro', rg', hQ, h => by
    by_cases hm : pnameMatches pname req = true
    · cases hex : processExtras odc req.extras ro with
      | error err => simp only [processDGEntries, if_pos hm, hex] at h; exact Except.noConfusion h
      | ok p =>
        obtain ⟨l1, ro1⟩ := p
        cases hre : processDGEntries odc dgc pname rest ro1 rg with
        | error err2 => simp only [processDGEntries, if_pos hm, hex, hre] at h; exact Except.noConfusion h
        | ok p2 =>
          obtain ⟨l2, ro2, rg2⟩ := p2
          simp only [processDGEntries, if_pos hm, hex, hre, Except.ok.injEq,
            Prod.mk.injEq] at h
          obtain ⟨h1, h2, h3⟩ := h
          subst h1
          subst h2
          subst h3
          obtain ⟨hQ1, hex1⟩ := processExtras_ok_ind odc (fun ro0 => Q ro0 rg) F
            (fun e R0 l0 R0' hQ0 hc0 => hodc e R0 l0 R0' rg hQ0 hc0) req.extras ro l1 _ hQ hex
          obtain ⟨hQ2, hout⟩ := processDGEntries_ok_ind odc dgc Q F G pname hodc hdgc
            rest ro1 rg l2 _ _ hQ1 hre
          exact ⟨hQ2, by rw [dgEntriesOut, if_pos hm]; exact ⟨l1, l2, rfl, hex1, hout⟩⟩
    · cases hre : processDGEntries odc dgc pname rest ro rg with
      | error err2 => simp only [processDGEntries, if_neg hm, hre] at h; exact Except.noConfusion h
      | ok p2 =>
        obtain ⟨l2, ro2, rg2⟩ := p2
        simp only [processDGEntries, if_neg hm, hre, Except.ok.injEq, Prod.mk.injEq] at h
        obtain ⟨h1, h2, h3⟩ := h
        subst h1
        subst h2
        subst h3
        obtain ⟨hQ2, hout⟩ := processDGEntries_ok_ind odc dgc Q F G pname hodc hdgc
          rest ro rg l2 _ _ hQ hre
        exact ⟨hQ2, by rw [dgEntriesOut, if_neg hm]; exact ⟨l2, rfl, hout⟩⟩
  | .table g :: rest, ro, rg, l, ro', rg', hQ, h => by
    cases hg : dgc g ro rg with
    | error err => simp only [processDGEntries, hg] at h; exact Except.noConfusion h
    | ok p =>
      obtain ⟨l1, ro1, rg1⟩ := p
      cases hre : processDGEntries odc dgc pname rest ro1 rg1 with
      | error err2 => simp only [processDGEntries, hg, hre] at h; exact Except.noConfusion h
      | ok p2 =>
        obtain ⟨l2, ro2, rg2⟩ := p2
        simp only [processDGEntries, hg, hre, Except.ok.injEq, Prod.mk.injEq] at h
        obtain ⟨h1, h2, h3⟩ := h
        subst h1
        subst h2
        subst h3
        obtain ⟨hQ1, hG1⟩ := hdgc g ro rg l1 ro1 rg1 hQ hg
        obtain ⟨hQ2, hout⟩ := processDGEntries_ok_ind odc dgc Q F G pname hodc hdgc
          rest ro1 rg1 l2 _ _ hQ1 hre
        exact ⟨hQ2, by rw [dgEntriesOut]; exact ⟨l1, l2, rfl, hG1, hout⟩⟩

theorem naiveExtras_mono (c c' : String → Option (List Requirement))
    (hcc : ∀ e v, c e = some v → c' e = some v) :
    ∀ (es : List String) (v : List Requirement),
      naiveExtras c es = some v → naiveExtras c' es = some v
  | [], v, h => h
  | e :: es, v, h => by
    cases hce : c e with
    | none => simp only [naiveExtras, hce] at h; exact Option.noConfusion h
    | some l =>
      cases hre : naiveExtras c es with
      | none => simp only [naiveExtras, hce, hre] at h; exact Option.noConfusion h
      | some ls =>
        simp only [naiveExtras, hce, hre] at h
        simp only [naiveExtras, hcc e l hce, naiveExtras_mono c c' hcc es ls hre]
        exact h

theorem naiveEntries_mono (c c' : String → Option (List Requirement))
    (hcc : ∀ e v, c e = some v → c' e = some v) (pname : Option String) :
    ∀ (body : List Requirement) (v : List Requirement),
      naiveEntries c pname body = some v → naiveEntries c' pname body = some v
  | [], v, h => h
  | req :: rest, v, h => by
    by_cases hm : pnameMatches pname req = true
    · cases hex : naiveExtras c req.extras with
      | none => simp only [naiveEntries, if_pos hm, hex] at h; exact Option.noConfusion h
      | some l1 =>
        cases hre : naiveEntries c pname rest with
        | none => simp only [naiveEntries, if_pos hm, hex, hre] at h; exact Option.noConfusion h
        | some l2 =>
          simp only [naiveEntries, if_pos hm, hex, hre] at h
          simp only [naiveEntries, if_pos hm, naiveExtras_mono c c' hcc req.extras l1 hex,
            naiveEntries_mono c c' hcc pname rest l2 hre]
          exact h
    · cases hre : naiveEntries c pname rest with
      | none => simp only [naiveEntries, if_neg hm, hre] at h; exact Option.noConfusion h
      | some l2 =>
        simp only [naiveEntries, if_neg hm, hre] at h
        simp only [naiveEntries, if_neg hm, naiveEntries_mono c c' hcc pname rest l2 hre]
        exact h

theorem naiveDGEntries_mono (c c' d d' : String → Option (List Requirement))
    (hcc : ∀ e v, c e = some v → c' e = some v)
    (hdd : ∀ g v, d g = some v → d' g = some v) (pname : Option String) :
    ∀ (body : List DependencyGroupSpecifier) (v : List Requirement),
      naiveDGEntries c d pname body = some v → naiveDGEntries c' d' pname body = some v
  | [], v, h => h
  | .string req :: rest, v, h => by
    by_cases hm : pnameMatches pname req = true
    · cases hex : naiveExtras c req.extras with
      | none => simp only [naiveDGEntries, if_pos hm, hex] at h; exact Option.noConfusion h
      | some l1 =>
        cases hre : naiveDGEntries c d pname rest with
        | none => simp only [naiveDGEntries, if_pos hm, hex, hre] at h; exact Option.noConfusion h
        | some l2 =>
          simp only [naiveDGEntries, if_pos hm, hex, hre] at h
          simp only [naiveDGEntries, if_pos hm, naiveExtras_mono c c' hcc req.extras l1 hex,
            naiveDGEntries_mono c c' d d' hcc hdd pname rest l2 hre]
          exact h
    · cases hre : naiveDGEntries c d pname rest with
      | none => simp only [naiveDGEntries, if_neg hm, hre] at h; exact Option.noConfusion h
      | some l2 =>
        simp only [naiveDGEntries, if_neg hm, hre] at h
        simp only [naiveDGEntries, if_neg hm,
          naiveDGEntries_mono c c' d d' hcc hdd pname rest l2 hre]
        exact h
  | .table g :: rest, v, h => by
    cases hg : d g with
    | none => simp only [naiveDGEntries, hg] at h; exact Option.noConfusion h
    | some l1 =>
      cases hre : naiveDGEntries c d pname rest with
      | none => simp only [naiveDGEntries, hg, hre] at h; exact Option.noConfusion h
      | some l2 =>
        simp only [naiveDGEntries, hg, hre] at h
        simp only [naiveDGEntries, hdd g l1 hg,
          naiveDGEntries_mono c c' d d' hcc hdd pname rest l2 hre]
        exact h

theorem naiveOD_succ (odT : RMap) (pname : Option String) :
    ∀ (n : Nat) (e : String) (v : List Requirement),
      naiveOD odT pname n e = some v → naiveOD odT pname (n + 1) e = some v
  | 0, e, v, h => by simp [naiveOD] at h
  | n + 1, e, v, h => by
    cases hf : findNormalized odT e with
    | none => simp only [naiveOD, hf] at h; exact Option.noConfusion h
    | some body =>
      simp only [naiveOD, hf] at h
      simp only [naiveOD, hf]
      exact naiveEntries_mono (naiveOD odT pname n) (naiveOD odT pname (n + 1))
        (naiveOD_succ odT pname n) pname body v h

theorem naiveOD_le (odT : RMap) (pname : Option String) (n m : Nat) (hnm : n ≤ m)
    (e : String) (v : List Requirement) (h : naiveOD odT pname n e = some v) :
    naiveOD odT pname m e = some v := by
  induction m with
  | zero =>
    have : n = 0 := Nat.le_zero.mp hnm
    subst this
    exact h
  | succ m ih =>
    rcases Nat.lt_or_ge n (m + 1) with hlt | hge
    · exact naiveOD_succ odT pname m e v (ih (Nat.lt_succ_iff.mp hlt))
    · have : n = m + 1 := Nat.le_antisymm hnm hge
      subst this
      exact h

theorem naiveDG_succ (odT : RMap) (dgT : GTable) (pname : Option String) :
    ∀ (n : Nat) (g : String) (v : List Requirement),
      naiveDG odT dgT pname n g = some v → naiveDG odT dgT pname (n + 1) g = some v
  | 0, g, v, h => by simp [naiveDG] at h
  | n + 1, g, v, h => by
    cases hf : lookupR dgT g with
    | none => simp only [naiveDG, hf] at h; exact Option.noConfusion h
    | some body =>
      simp only [naiveDG, hf] at h
      simp only [naiveDG, hf]
      exact naiveDGEntries_mono (naiveOD odT pname n) (naiveOD odT pname (n + 1))
        (naiveDG odT dgT pname n) (naiveDG odT dgT pname (n + 1))
        (naiveOD_succ odT pname n) (naiveDG_succ odT dgT pname n) pname body v h

theorem naiveDG_le (odT : RMap) (dgT : GTable) (pname : Option String) (n m : Nat)
    (hnm : n ≤ m) (g : String) (v : List Requirement)
    (h : naiveDG odT dgT pname n g = some v) : naiveDG odT dgT pname m g = some v := by
  induction m with
  | zero =>
    have : n = 0 := Nat.le_zero.mp hnm
    subst this
    exact h
  | succ m ih =>
    rcases Nat.lt_or_ge n (m + 1) with hlt | hge
    · exact naiveDG_succ odT dgT pname m g v (ih (Nat.lt_succ_iff.mp hlt))
    · have : n = m + 1 := Nat.le_antisymm hnm hge
      subst this
      exact h

theorem extrasConcat_naive (odT : RMap) (pname : Option String) (es : List String)
    (out : List Requirement)
    (h : extrasConcat (fun e l => ∃ n, naiveOD odT pname n e = some l) es out) :
    ∃ n, naiveExtras (naiveOD odT pname n) es = some out := by
  obtain ⟨ls, hout, hfa⟩ := h
  subst hout
  induction hfa with
  | nil => exact ⟨0, rfl⟩
  | cons hF hfa2 ih =>
    rename_i e l1 es2 ls2
    obtain ⟨n1, hn1⟩ := hF
    obtain ⟨n2, hn2⟩ := ih
    refine ⟨max n1 n2, ?_⟩
    have he : naiveOD odT pname (max n1 n2) e = some l1 :=
      naiveOD_le odT pname n1 (max n1 n2) (Nat.le_max_left n1 n2) e l1 hn1
    have hes : naiveExtras (naiveOD odT pname (max n1 n2)) es2 = some ls2.flatten :=
      naiveExtras_mono (naiveOD odT pname n2) (naiveOD odT pname (max n1 n2))
        (fun e' v' h' => naiveOD_le odT pname n2 (max n1 n2) (Nat.le_max_right n1 n2) e' v' h')
        es2 ls2.flatten hn2
    simp [naiveExtras, he, hes]

theorem entriesOut_naive (odT : RMap) (pname : Option String) :
    ∀ (body : List Requirement) (out : List Requirement),
      entriesOut (fun e l => ∃ n, naiveOD odT pname n e = some l) pname body out →
      ∃ n, naiveEntries (naiveOD odT pname n) pname body = some out
  | [], out, h => by
    rw [entriesOut] at h
    subst h
    exact ⟨0, rfl⟩
  | req :: rest, out, h => by
    by_cases hm : pnameMatches pname req = true
    · rw [entriesOut, if_pos hm] at h
      obtain ⟨l1, l2, hout, hex, hrest⟩ := h
      subst hout
      obtain ⟨n1, hn1⟩ := extrasConcat_naive odT pname req.extras l1 hex
      obtain ⟨n2, hn2⟩ := entriesOut_naive odT pname rest l2 hrest
      refine ⟨max n1 n2, ?_⟩
      have hx : naiveExtras (naiveOD odT pname (max n1 n2)) req.extras = some l1 :=
        naiveExtras_mono (naiveOD odT pname n1) (naiveOD odT pname (max n1 n2))
          (fun e' v' h' => naiveOD_le odT pname n1 (max n1 n2) (Nat.le_max_left n1 n2) e' v' h')
          req.extras l1 hn1
      have hr : naiveEntries (naiveOD odT pname (max n1 n2)) pname rest = some l2 :=
        naiveEntries_mono (naiveOD odT pname n2) (naiveOD odT pname (max n1 n2))
          (fun e' v' h' => naiveOD_le odT pname n2 (max n1 n2) (Nat.le_max_right n1 n2) e' v' h')
          pname rest l2 hn2
      simp [naiveEntries, if_pos hm, hx, hr]
    · rw [entriesOut, if_neg hm] at h
      obtain ⟨l2, hout, hrest⟩ := h
      subst hout
      obtain ⟨n2, hn2⟩ := entriesOut_naive odT pname rest l2 hrest
      refine ⟨n2, ?_⟩
      simp [naiveEntries, if_neg hm, hn2]

theorem dgEntriesOut_naive (odT : RMap) (dgT : GTable) (pname : Option String) :
    ∀ (body : List DependencyGroupSpecifier) (out : List Requirement),
      dgEntriesOut (fun e l => ∃ n, naiveOD odT pname n e = some l)
        (fun g l => ∃ n, naiveDG odT dgT pname n g = some l) pname body out →
      ∃ n, naiveDGEntries (naiveOD odT pname n) (naiveDG odT dgT pname n) pname body = some out
  | [], out, h => by
    rw [dgEntriesOut] at h
    subst h
    exact ⟨0, rfl⟩
  | .string req :: rest, out, h => by
    by_cases hm : pnameMatches pname req = true
    · rw [dgEntriesOut, if_pos hm] at h
      obtain ⟨l1, l2, hout, hex, hrest⟩ := h
      subst hout
      obtain ⟨n1, hn1⟩ := extrasConcat_naive odT pname req.extras l1 hex
      obtain ⟨n2, hn2⟩ := dgEntriesOut_naive odT dgT pname rest l2 hrest
      refine ⟨max n1 n2, ?_⟩
      have hx : naiveExtras (naiveOD odT pname (max n1 n2)) req.extras = some l1 :=
        naiveExtras_mono (naiveOD odT pname n1) (naiveOD odT pname (max n1 n2))
          (fun e' v' h' => naiveOD_le odT pname n1 (max n1 n2) (Nat.le_max_left n1 n2) e' v' h')
          req.extras l1 hn1
      have hr : naiveDGEntries (naiveOD odT pname (max n1 n2))
          (naiveDG odT dgT pname (max n1 n2)) pname rest = some l2 :=
        naiveDGEntries_mono (naiveOD odT pname n2) (naiveOD odT pname (max n1 n2))
          (naiveDG odT dgT pname n2) (naiveDG odT dgT pname (max n1 n2))
          (fun e' v' h' => naiveOD_le odT pname n2 (max n1 n2) (Nat.le_max_right n1 n2) e' v' h')
          (fun g' v' h' => naiveDG_le odT dgT pname n2 (max n1 n2) (Nat.le_max_right n1 n2) g' v' h')
          pname rest l2 hn2
      simp [naiveDGEntries, if_pos hm, hx, hr]
    · rw [dgEntriesOut, if_neg hm] at h
      obtain ⟨l2, hout, hrest⟩ := h
      subst hout
      obtain ⟨n2, hn2⟩ := dgEntriesOut_naive odT dgT pname rest l2 hrest
      refine ⟨n2, ?_⟩
      simp [naiveDGEntries, if_neg hm, hn2]
  | .table g :: rest, out, h => by
    rw [dgEntriesOut] at h
    obtain ⟨l1, l2, hout, hG, hrest⟩ := h
    subst hout
    obtain ⟨n1, hn1⟩ := hG
    obtain ⟨n2, hn2⟩ := dgEntriesOut_naive odT dgT pname rest l2 hrest
    refine ⟨max n1 n2, ?_⟩
    have hg : naiveDG odT dgT pname (max n1 n2) g = some l1 :=
      naiveDG_le odT dgT pname n1 (max n1 n2) (Nat.le_max_left n1 n2) g l1 hn1
    have hr : naiveDGEntries (naiveOD odT pname (max n1 n2))
        (naiveDG odT dgT pname (max n1 n2)) pname rest = some l2 :=
      naiveDGEntries_mono (naiveOD odT pname n2) (naiveOD odT pname (max n1 n2))
        (naiveDG odT dgT pname n2) (naiveDG odT dgT pname (max n1 n2))
        (fun e' v' h' => naiveOD_le odT pname n2 (max n1 n2) (Nat.le_max_right n1 n2) e' v' h')
        (fun g' v' h' => naiveDG_le odT dgT pname n2 (max n1 n2) (Nat.le_max_right n1 n2) g' v' h')
        pname rest l2 hn2
    simp [naiveDGEntries, hg, hr]

theorem resolveOD_ok_naive (odT : RMap) (pname : Option String) :
    ∀ (fuel : Nat) (e : String) (R : RMap) (parents : List Item) (l : List Requirement)
      (R' : RMap),
      (∀ k v, lookupR R k = some v → ∃ n, naiveOD odT pname n k = some v) →
      resolveOD odT pname fuel e R parents = .ok (l, R') →
      (∀ k v, lookupR R' k = some v → ∃ n, naiveOD odT pname n k = some v) ∧
        ∃ n, naiveOD odT pname n e = some l
  | 0, e, R, parents, l, R', hINV, h => by
    simp only [resolveOD] at h
    exact Except.noConfusion h
  | fuel + 1, e, R, parents, l, R', hINV, h => by
    cases hm : lookupR R e with
    | some reqs =>
      simp only [resolveOD, hm, Except.ok.injEq, Prod.mk.injEq] at h
      obtain ⟨h1, h2⟩ := h
      subst h1
      subst h2
      exact ⟨hINV, hINV e _ hm⟩
    | none =>
      cases hf : findNormalized odT e with
      | none =>
        cases hl : parents.getLast? with
        | none => simp only [resolveOD, hm, hf, hl] at h; exact Except.noConfusion h
        | some p => simp only [resolveOD, hm, hf, hl] at h; exact Except.noConfusion h
      | some body =>
        by_cases hc : Item.extra e ∈ parents
        · simp only [resolveOD, hm, hf] at h
          rw [if_pos (by simpa using hc)] at h
          exact Except.noConfusion h
        · cases hpe : processEntries
              (fun e' R0 => resolveOD odT pname fuel e' R0 (parents ++ [Item.extra e]))
              pname body R with
          | error err =>
            simp only [resolveOD, hm, hf, hpe] at h
            rw [if_neg (by simpa using hc)] at h
            exact Except.noConfusion h
          | ok p =>
            obtain ⟨l0, R0'⟩ := p
            simp only [resolveOD, hm, hf, hpe] at h
            rw [if_neg (by simpa using hc)] at h
            simp only [Except.ok.injEq, Prod.mk.injEq] at h
            obtain ⟨h1, h2⟩ := h
            subst h1
            subst h2
            obtain ⟨hINV2, hout⟩ := processEntries_ok_ind _
              (fun R1 => ∀ k v, lookupR R1 k = some v → ∃ n, naiveOD odT pname n k = some v)
              (fun e' l' => ∃ n, naiveOD odT pname n e' = some l') pname
              (fun e' R1 l' R1' hQ1 hc1 =>
                resolveOD_ok_naive odT pname fuel e' R1 (parents ++ [Item.extra e]) l' R1' hQ1 hc1)
              body R l0 R0' hINV hpe
            obtain ⟨n, hn⟩ := entriesOut_naive odT pname body l0 hout
            have hnaive : naiveOD odT pname (n + 1) e = some l0 := by
              simp only [naiveOD, hf]
              exact hn
            refine ⟨?_, n + 1, hnaive⟩
            intro k v hk
            by_cases hke : k = e
            · subst hke
              rw [lookupR_insertR_self] at hk
              obtain rfl : l0 = v := by simpa using hk
              exact ⟨n + 1, hnaive⟩
            · rw [lookupR_insertR_ne R0' e k l0 hke] at hk
              exact hINV2 k v hk

theorem resolveDG_ok_naive (odT : RMap) (dgT : GTable) (pname : Option String) :
    ∀ (fuel : Nat) (g : String) (ro rg : RMap) (parents : List Item) (l : List Requirement)
      (ro' rg' : RMap),
      (∀ k v, lookupR ro k = some v → ∃ n, naiveOD odT pname n k = some v) →
      (∀ k v, lookupR rg k = some v → ∃ n, naiveDG odT dgT pname n k = some v) →
      resolveDG odT dgT pname fuel g ro rg parents = .ok (l, ro', rg') →
      (∀ k v, lookupR ro' k = some v → ∃ n, naiveOD odT pname n k = some v) ∧
        (∀ k v, lookupR rg' k = some v → ∃ n, naiveDG odT dgT pname n k = some v) ∧
        ∃ n, naiveDG odT dgT pname n g = some l
  | 0, g, ro, rg, parents, l, ro', rg', hInvA, hIG, h => by
    simp only [resolveDG] at h
    exact Except.noConfusion h
  | fuel + 1, g, ro, rg, parents, l, ro', rg', hInvA, hIG, h => by
    cases hm : lookupR rg g with
    | some reqs =>
      simp only [resolveDG, hm, Except.ok.injEq, Prod.mk.injEq] at h
      obtain ⟨h1, h2, h3⟩ := h
      subst h1
      subst h2
      subst h3
      exact ⟨hInvA, hIG, hIG g _ hm⟩
    | none =>
      cases hf : lookupR dgT g with
      | none =>
        cases hl : parents.getLast? with
        | none => simp only [resolveDG, hm, hf, hl] at h; exact Except.noConfusion h
        | some p => simp only [resolveDG, hm, hf, hl] at h; exact Except.noConfusion h
      | some body =>
        by_cases hc : Item.group g ∈ parents
        · simp only [resolveDG, hm, hf] at h
          rw [if_pos (by simpa using hc)] at h
          exact Except.noConfusion h
        · cases hpe : processDGEntries
              (fun e' R0 => resolveOD odT pname fuel e' R0 (parents ++ [Item.group g]))
              (fun g0 ro0 rg0 => resolveDG odT dgT pname fuel g0 ro0 rg0 (parents ++ [Item.group g]))
              pname body ro rg with
          | error err =>
            simp only [resolveDG, hm, hf, hpe] at h
            rw [if_neg (by simpa using hc)] at h
            exact Except.noConfusion h
          | ok p =>
            obtain ⟨l0, ro0', rg0'⟩ := p
            simp only [resolveDG, hm, hf, hpe] at h
            rw [if_neg (by simpa using hc)] at h
            simp only [Except.ok.injEq, Prod.mk.injEq] at h
            obtain ⟨h1, h2, h3⟩ := h
            subst h1
            subst h2
            subst h3
            obtain ⟨hINV2, hout⟩ := processDGEntries_ok_ind _ _
              (fun ro1 rg1 =>
                (∀ k v, lookupR ro1 k = some v → ∃ n, naiveOD odT pname n k = some v) ∧
                (∀ k v, lookupR rg1 k = some v → ∃ n, naiveDG odT dgT pname n k = some v))
              (fun e' l' => ∃ n, naiveOD odT pname n e' = some l')
              (fun g' l' => ∃ n, naiveDG odT dgT pname n g' = some l') pname
              (fun e' ro1 l' ro1' rg1 hQ1 hc1 =>
                have hod := resolveOD_ok_naive odT pname fuel e' ro1
                  (parents ++ [Item.group g]) l' ro1' hQ1.1 hc1
                ⟨⟨hod.1, hQ1.2⟩, hod.2⟩)
              (fun g' ro1 rg1 l' ro1' rg1' hQ1 hc1 =>
                have hdg := resolveDG_ok_naive odT dgT pname fuel g' ro1 rg1
                  (parents ++ [Item.group g]) l' ro1' rg1' hQ1.1 hQ1.2 hc1
                ⟨⟨hdg.1, hdg.2.1⟩, hdg.2.2⟩)
              body ro rg l0 ro0' rg0' ⟨hInvA, hIG⟩ hpe
            obtain ⟨n, hn⟩ := dgEntriesOut_naive odT dgT pname body l0 hout
            have hnaive : naiveDG odT dgT pname (n + 1) g = some l0 := by
              simp only [naiveDG, hf]
              exact hn
            refine ⟨hINV2.1, ?_, n + 1, hnaive⟩
            intro k v hk
            by_cases hkg : k = g
            · subst hkg
              rw [lookupR_insertR_self] at hk
              obtain rfl : l0 = v := by simpa using hk
              exact ⟨n + 1, hnaive⟩
            · rw [lookupR_insertR_ne rg0' g k l0 hkg] at hk
              exact hINV2.2 k v hk

theorem resolveOD_memo (odT : RMap) (pname : Option String) :
    ∀ (fuel : Nat) (e : String) (R : RMap) (parents : List Item) (l : List Requirement)
      (R' : RMap),
      resolveOD odT pname fuel e R parents = .ok (l, R') →
      lookupR R' e = some l ∧ ∀ k v, lookupR R k = some v → lookupR R' k = some v
  | 0, e, R, parents, l, R', h => by
    simp only [resolveOD] at h
    exact Except.noConfusion h
  | fuel + 1, e, R, parents, l, R', h => by
    cases hm : lookupR R e with
    | some reqs =>
      simp only [resolveOD, hm, Except.ok.injEq, Prod.mk.injEq] at h
      obtain ⟨h1, h2⟩ := h
      subst h1
      subst h2
      exact ⟨hm, fun k v hk => hk⟩
    | none =>
      cases hf : findNormalized odT e with
      | none =>
        cases hl : parents.getLast? with
        | none => simp only [resolveOD, hm, hf, hl] at h; exact Except.noConfusion h
        | some p => simp only [resolveOD, hm, hf, hl] at h; exact Except.noConfusion h
      | some body =>
        by_cases hc : Item.extra e ∈ parents
        · simp only [resolveOD, hm, hf] at h
          rw [if_pos (by simpa using hc)] at h
          exact Except.noConfusion h
        · cases hpe : processEntries
              (fun e' R0 => resolveOD odT pname fuel e' R0 (parents ++ [Item.extra e]))
              pname body R with
          | error err =>
            simp only [resolveOD, hm, hf, hpe] at h
            rw [if_neg (by simpa using hc)] at h
            exact Except.noConfusion h
          | ok p =>
            obtain ⟨l0, R0'⟩ := p
            simp only [resolveOD, hm, hf, hpe] at h
            rw [if_neg (by simpa using hc)] at h
            simp only [Except.ok.injEq, Prod.mk.injEq] at h
            obtain ⟨h1, h2⟩ := h
            subst h1
            subst h2
            obtain ⟨hpres, _⟩ := processEntries_ok_ind _
              (fun R1 => ∀ k v, lookupR R k = some v → lookupR R1 k = some v)
              (fun _ _ => True) pname
              (fun e' R1 l' R1' hQ1 hc1 =>
                ⟨fun k v hk =>
                  (resolveOD_memo odT pname fuel e' R1 (parents ++ [Item.extra e]) l' R1' hc1).2
                    k v (hQ1 k v hk), trivial⟩)
              body R l0 R0' (fun k v hk => hk) hpe
            refine ⟨lookupR_insertR_self R0' e l0, ?_⟩
            intro k v hk
            by_cases hke : k = e
            · subst hke
              rw [hk] at hm
              exact Option.noConfusion hm
            · rw [lookupR_insertR_ne R0' e k l0 hke]
              exact hpres k v hk

theorem resolveDG_memo (odT : RMap) (dgT : GTable) (pname : Option String) :
    ∀ (fuel : Nat) (g : String) (ro rg : RMap) (parents : List Item) (l : List Requirement)
      (ro' rg' : RMap),
      resolveDG odT dgT pname fuel g ro rg parents = .ok (l, ro', rg') →
      lookupR rg' g = some l ∧
        (∀ k v, lookupR ro k = some v → lookupR ro' k = some v) ∧
        (∀ k v, lookupR rg k = some v → lookupR rg' k = some v)
  | 0, g, ro, rg, parents, l, ro', rg', h => by
    simp only [resolveDG] at h
    exact Except.noConfusion h
  | fuel + 1, g, ro, rg, parents, l, ro', rg', h => by
    cases hm : lookupR rg g with
    | some reqs =>
      simp only [resolveDG, hm, Except.ok.injEq, Prod.mk.injEq] at h
      obtain ⟨h1, h2, h3⟩ := h
      subst h1
      subst h2
      subst h3
      exact ⟨hm, fun k v hk => hk, fun k v hk => hk⟩
    | none =>
      cases hf : lookupR dgT g with
      | none =>
        cases hl : parents.getLast? with
        | none => simp only [resolveDG, hm, hf, hl] at h; exact Except.noConfusion h
        | some p => simp only [resolveDG, hm, hf, hl] at h; exact Except.noConfusion h
      | some body =>
        by_cases hc : Item.group g ∈ parents
        · simp only [resolveDG, hm, hf] at h
          rw [if_pos (by simpa using hc)] at h
          exact Except.noConfusion h
        · cases hpe : processDGEntries
              (fun e' R0 => resolveOD odT pname fuel e' R0 (parents ++ [Item.group g]))
              (fun g0 ro0 rg0 => resolveDG odT dgT pname fuel g0 ro0 rg0 (parents ++ [Item.group g]))
              pname body ro rg with
          | error err =>
            simp only [resolveDG, hm, hf, hpe] at h
            rw [if_neg (by simpa using hc)] at h
            exact Except.noConfusion h
          | ok p =>
            obtain ⟨l0, ro0', rg0'⟩ := p
            simp only [resolveDG, hm, hf, hpe] at h
            rw [if_neg (by simpa using hc)] at h
            simp only [Except.ok.injEq, Prod.mk.injEq] at h
            obtain ⟨h1, h2, h3⟩ := h
            subst h1
            subst h2
            subst h3
            obtain ⟨hpres, _⟩ := processDGEntries_ok_ind _ _
              (fun ro1 rg1 =>
                (∀ k v, lookupR ro k = some v → lookupR ro1 k = some v) ∧
                (∀ k v, lookupR rg k = some v → lookupR rg1 k = some v))
              (fun _ _ => True) (fun _ _ => True) pname
              (fun e' ro1 l' ro1' rg1 hQ1 hc1 =>
                ⟨⟨fun k v hk =>
                  (resolveOD_memo odT pname fuel e' ro1 (parents ++ [Item.group g]) l' ro1' hc1).2
                    k v (hQ1.1 k v hk), hQ1.2⟩, trivial⟩)
              (fun g' ro1 rg1 l' ro1' rg1' hQ1 hc1 =>
                have hmemo := resolveDG_memo odT dgT pname fuel g' ro1 rg1
                  (parents ++ [Item.group g]) l' ro1' rg1' hc1
                ⟨⟨fun k v hk => hmemo.2.1 k v (hQ1.1 k v hk),
                  fun k v hk => hmemo.2.2 k v (hQ1.2 k v hk)⟩, trivial⟩)
              body ro rg l0 ro0' rg0' ⟨fun k v hk => hk, fun k v hk => hk⟩ hpe
            refine ⟨lookupR_insertR_self rg0' g l0, hpres.1, ?_⟩
            intro k v hk
            by_cases hkg : k = g
            · subst hkg
              rw [hk] at hm
              exact Option.noConfusion hm
            · rw [lookupR_insertR_ne rg0' g k l0 hkg]
              exact hpres.2 k v hk

theorem resolveAllOD_naive (odT : RMap) (pname : Option String) (fuel : Nat) :
    ∀ (ks : List String) (R R2 : RMap),
      (∀ k v, lookupR R k = some v → ∃ n, naiveOD odT pname n k = some v) →
      resolveAllOD odT pname fuel ks R = .ok R2 →
      ∀ k v, lookupR R2 k = some v → ∃ n, naiveOD odT pname n k = some v
  | [], R, R2, hINV, h => by
    simp only [resolveAllOD, Except.ok.injEq] at h
    subst h
    exact hINV
  | k :: ks, R, R2, hINV, h => by
    cases hk : resolveOD odT pname fuel k R [] with
    | error err => simp only [resolveAllOD, hk] at h; exact Except.noConfusion h
    | ok p =>
      obtain ⟨l, R'⟩ := p
      simp only [resolveAllOD, hk] at h
      exact resolveAllOD_naive odT pname fuel ks R' R2
        (resolveOD_ok_naive odT pname fuel k R [] l R' hINV hk).1 h

theorem resolveAllDG_naive (odT : RMap) (dgT : GTable) (pname : Option String) (fuel : Nat) :
    ∀ (ks : List String) (ro rg ro2 rg2 : RMap),
      (∀ k v, lookupR ro k = some v → ∃ n, naiveOD odT pname n k = some v) →
      (∀ k v, lookupR rg k = some v → ∃ n, naiveDG odT dgT pname n k = some v) →
      resolveAllDG odT dgT pname fuel ks ro rg = .ok (ro2, rg2) →
      (∀ k v, lookupR ro2 k = some v → ∃ n, naiveOD odT pname n k = some v) ∧
        (∀ k v, lookupR rg2 k = some v → ∃ n, naiveDG odT dgT pname n k = some v)
  | [], ro, rg, ro2, rg2, hInvA, hIG, h => by
    simp only [resolveAllDG, Except.ok.injEq, Prod.mk.injEq] at h
    obtain ⟨h1, h2⟩ := h
    subst h1
    subst h2
    exact ⟨hInvA, hIG⟩
  | k :: ks, ro, rg, ro2, rg2, hInvA, hIG, h => by
    cases hk : resolveDG odT dgT pname fuel k ro rg [] with
    | error err => simp only [resolveAllDG, hk] at h; exact Except.noConfusion h
    | ok p =>
      obtain ⟨l, ro', rg'⟩ := p
      simp only [resolveAllDG, hk] at h
      have hstep := resolveDG_ok_naive odT dgT pname fuel k ro rg [] l ro' rg' hInvA hIG hk
      exact resolveAllDG_naive odT dgT pname fuel ks ro' rg' ro2 rg2 hstep.1 hstep.2.1 h

/-- Claim C2: memoization is sound.  (1) Whatever `resolve()` returns agrees
with full naive re-expansion: every entry of either returned map is exactly
what the memo-free naive resolver produces for that name at sufficient fuel
— so a group referenced from several places always splices one and the same
list.  (2)–(3) The memo maps only grow and are never overwritten: a
successful call returns a list that is the memo entry of the resolved name in
the resulting map, and every pre-existing entry survives unchanged into it —
so every later reference site splices exactly the list recorded in the
returned map. -/
theorem claim_C2 :
    (∀ (pname : Option String) (odT? : Option RMap) (dgT? : Option GTable) (fuel : Nat)
        (S : ResolvedDependencies),
      resolveFull pname odT? dgT? fuel = .ok S →
      (∀ k v, lookupR S.optional_dependencies k = some v →
        ∃ n, naiveOD (odT?.getD []) pname n k = some v) ∧
      (∀ k v, lookupR S.dependency_groups k = some v →
        ∃ n, naiveDG (odT?.getD []) (dgT?.getD []) pname n k = some v))
    ∧ (∀ (odT : RMap) (pname : Option String) (fuel : Nat) (e : String) (R : RMap)
        (parents : List Item) (l : List Requirement) (R' : RMap),
      resolveOD odT pname fuel e R parents = .ok (l, R') →
      lookupR R' e = some l ∧ ∀ k v, lookupR R k = some v → lookupR R' k = some v)
    ∧ (∀ (odT : RMap) (dgT : GTable) (pname : Option String) (fuel : Nat) (g : String)
        (ro rg : RMap) (parents : List Item) (l : List Requirement) (ro' rg' : RMap),
      resolveDG odT dgT pname fuel g ro rg parents = .ok (l, ro', rg') →
      lookupR rg' g = some l ∧
        (∀ k v, lookupR ro k = some v → lookupR ro' k = some v) ∧
        (∀ k v, lookupR rg k = some v → lookupR rg' k = some v)) := by
  refine ⟨?_, ?_, ?_⟩
  · intro pname odT? dgT? fuel S h
    unfold resolveFull at h
    have hempty : ∀ k v, lookupR ([] : RMap) k = some v →
        ∃ n, naiveOD (odT?.getD []) pname n k = some v := by
      intro k v hk
      simp [lookupR] at hk
    have hemptyG : ∀ (dgT : GTable) k v, lookupR ([] : RMap) k = some v →
        ∃ n, naiveDG (odT?.getD []) dgT pname n k = some v := by
      intro dgT k v hk
      simp [lookupR] at hk
    cases odT? with
    | none =>
      cases dgT? with
      | none =>
        simp only [Except.ok.injEq] at h
        subst h
        exact ⟨hempty, hemptyG []⟩
      | some dgT =>
        cases hdg : resolveAllDG [] dgT pname fuel (keysOf dgT) [] [] with
        | error err => simp only [Option.getD, hdg] at h; exact Except.noConfusion h
        | ok p =>
          obtain ⟨ro, rg⟩ := p
          simp only [Option.getD, hdg, Except.ok.injEq] at h
          subst h
          exact resolveAllDG_naive [] dgT pname fuel (keysOf dgT) [] [] ro rg
            hempty (hemptyG dgT) hdg
    | some odT =>
      cases hod : resolveAllOD odT pname fuel (keysOf odT) [] with
      | error err => simp only [hod] at h; exact Except.noConfusion h
      | ok rOD =>
        have hODinv := resolveAllOD_naive odT pname fuel (keysOf odT) [] rOD hempty hod
        cases dgT? with
        | none =>
          simp only [hod, Except.ok.injEq] at h
          subst h
          exact ⟨hODinv, hemptyG []⟩
        | some dgT =>
          cases hdg : resolveAllDG odT dgT pname fuel (keysOf dgT) rOD [] with
          | error err => simp only [hod, Option.getD, hdg] at h; exact Except.noConfusion h
          | ok p =>
            obtain ⟨ro, rg⟩ := p
            simp only [hod, Option.getD, hdg, Except.ok.injEq] at h
            subst h
            exact resolveAllDG_naive odT dgT pname fuel (keysOf dgT) rOD [] ro rg
              hODinv (hemptyG dgT) hdg
  · intro odT pname fuel e R parents l R' h
    exact resolveOD_memo odT pname fuel e R parents l R' h
  · intro odT dgT pname fuel g ro rg parents l ro' rg' h
    exact resolveDG_memo odT dgT pname fuel g ro rg parents l ro' rg' h

/-- Witness for C2 on a diamond-shaped reference graph
(`a` includes `b` and `c`, both include `d`): the memoized result for `a`
equals its naive re-expansion at some fuel. -/
theorem claim_C2_witness :
    ∃ n, naiveDG ([] : RMap)
        [("a", [.table "b", .table "c"]), ("b", [.table "d"]), ("c", [.table "d"]),
         ("d", [.string ⟨"x", [], ""⟩])] none n "a" =
      some [⟨"x", [], ""⟩, ⟨"x", [], ""⟩] :=
  ((claim_C2.1 none none
      (some [("a", [.table "b", .table "c"]), ("b", [.table "d"]), ("c", [.table "d"]),
             ("d", [.string ⟨"x", [], ""⟩])]) 10
      ⟨[], [("d", [⟨"x", [], ""⟩]), ("b", [⟨"x", [], ""⟩]), ("c", [⟨"x", [], ""⟩]),
            ("a", [⟨"x", [], ""⟩, ⟨"x", [], ""⟩])]⟩ rfl).2 "a"
    [⟨"x", [], ""⟩, ⟨"x", [], ""⟩] rfl)

theorem findNormalized_mem (odT : RMap) (e : String) (body : List Requirement)
    (h : findNormalized odT e = some body) :
    ∃ kv, kv ∈ odT ∧ normalize_name kv.1 = normalize_name e ∧ kv.2 = body := by
  unfold findNormalized at h
  cases hf : odT.find? (fun kv => normalize_name kv.1 == normalize_name e) with
  | none => rw [hf] at h; exact Option.noConfusion h
  | some kv =>
    rw [hf] at h
    refine ⟨kv, List.mem_of_find?_eq_some hf, by simpa using List.find?_some hf, ?_⟩
    simpa using h

theorem resolveOD_keys (odT : RMap) (pname : Option String) :
    ∀ (fuel : Nat) (e : String) (R : RMap) (parents : List Item) (l : List Requirement)
      (R' : RMap),
      resolveOD odT pname fuel e R parents = .ok (l, R') →
      ∀ k, (lookupR R' k).isSome = true → (lookupR R k).isSome = true ∨
        ∃ k0 ∈ keysOf odT, normalize_name k0 = normalize_name k
  | 0, e, R, parents, l, R', h => by
    simp only [resolveOD] at h
    exact Except.noConfusion h
  | fuel + 1, e, R, parents, l, R', h => by
    cases hm : lookupR R e with
    | some reqs =>
      simp only [resolveOD, hm, Except.ok.injEq, Prod.mk.injEq] at h
      obtain ⟨h1, h2⟩ := h
      subst h1
      subst h2
      exact fun k hk => Or.inl hk
    | none =>
      cases hf : findNormalized odT e with
      | none =>
        cases hl : parents.getLast? with
        | none => simp only [resolveOD, hm, hf, hl] at h; exact Except.noConfusion h
        | some p => simp only [resolveOD, hm, hf, hl] at h; exact Except.noConfusion h
      | some body =>
        by_cases hc : Item.extra e ∈ parents
        · simp only [resolveOD, hm, hf] at h
          rw [if_pos (by simpa using hc)] at h
          exact Except.noConfusion h
        · cases hpe : processEntries
              (fun e' R0 => resolveOD odT pname fuel e' R0 (parents ++ [Item.extra e]))
              pname body R with
          | error err =>
            simp only [resolveOD, hm, hf, hpe] at h
            rw [if_neg (by simpa using hc)] at h
            exact Except.noConfusion h
          | ok p =>
            obtain ⟨l0, R0'⟩ := p
            simp only [resolveOD, hm, hf, hpe] at h
            rw [if_neg (by simpa using hc)] at h
            simp only [Except.ok.injEq, Prod.mk.injEq] at h
            obtain ⟨h1, h2⟩ := h
            subst h1
            subst h2
            obtain ⟨hprov, _⟩ := processEntries_ok_ind _
              (fun R1 => ∀ k, (lookupR R1 k).isSome = true → (lookupR R k).isSome = true ∨
                ∃ k0 ∈ keysOf odT, normalize_name k0 = normalize_name k)
              (fun _ _ => True) pname
              (fun e' R1 l' R1' hQ1 hc1 =>
                ⟨fun k hk =>
                  match resolveOD_keys odT pname fuel e' R1 (parents ++ [Item.extra e]) l' R1'
                      hc1 k hk with
                  | Or.inl hk1 => hQ1 k hk1
                  | Or.inr hw => Or.inr hw, trivial⟩)
              body R l0 R0' (fun k hk => Or.inl hk) hpe
            intro k hk
            by_cases hke : k = e
            · subst hke
              obtain ⟨kv, hkv, hn, _⟩ := findNormalized_mem odT k body hf
              exact Or.inr ⟨kv.1, List.mem_map.mpr ⟨kv, hkv, rfl⟩, hn⟩
            · rw [lookupR_insertR_ne R0' e k l0 hke] at hk
              exact hprov k hk

theorem resolveDG_keys (odT : RMap) (dgT : GTable) (pname : Option String) :
    ∀ (fuel : Nat) (g : String) (ro rg : RMap) (parents : List Item) (l : List Requirement)
      (ro' rg' : RMap),
      resolveDG odT dgT pname fuel g ro rg parents = .ok (l, ro', rg') →
      (∀ k, (lookupR ro' k).isSome = true → (lookupR ro k).isSome = true ∨
        ∃ k0 ∈ keysOf odT, normalize_name k0 = normalize_name k) ∧
      (∀ k, (lookupR rg' k).isSome = true → (lookupR rg k).isSome = true ∨ k ∈ keysOf dgT)
  | 0, g, ro, rg, parents, l, ro', rg', h => by
    simp only [resolveDG] at h
    exact Except.noConfusion h
  | fuel + 1, g, ro, rg, parents, l, ro', rg', h => by
    cases hm : lookupR rg g with
    | some reqs =>
      simp only [resolveDG, hm, Except.ok.injEq, Prod.mk.injEq] at h
      obtain ⟨h1, h2, h3⟩ := h
      subst h1
      subst h2
      subst h3
      exact ⟨fun k hk => Or.inl hk, fun k hk => Or.inl hk⟩
    | none =>
      cases hf : lookupR dgT g with
      | none =>
        cases hl : parents.getLast? with
        | none => simp only [resolveDG, hm, hf, hl] at h; exact Except.noConfusion h
        | some p => simp only [resolveDG, hm, hf, hl] at h; exact Except.noConfusion h
      | some body =>
        by_cases hc : Item.group g ∈ parents
        · simp only [resolveDG, hm, hf] at h
          rw [if_pos (by simpa using hc)] at h
          exact Except.noConfusion h
        · cases hpe : processDGEntries
              (fun e' R0 => resolveOD odT pname fuel e' R0 (parents ++ [Item.group g]))
              (fun g0 ro0 rg0 => resolveDG odT dgT pname fuel g0 ro0 rg0 (parents ++ [Item.group g]))
              pname body ro rg with
          | error err =>
            simp only [resolveDG, hm, hf, hpe] at h
            rw [if_neg (by simpa using hc)] at h
            exact Except.noConfusion h
          | ok p =>
            obtain ⟨l0, ro0', rg0'⟩ := p
            simp only [resolveDG, hm, hf, hpe] at h
            rw [if_neg (by simpa using hc)] at h
            simp only [Except.ok.injEq, Prod.mk.injEq] at h
            obtain ⟨h1, h2, h3⟩ := h
            subst h1
            subst h2
            subst h3
            obtain ⟨hprov, _⟩ := processDGEntries_ok_ind _ _
              (fun ro1 rg1 =>
                (∀ k, (lookupR ro1 k).isSome = true → (lookupR ro k).isSome = true ∨
                  ∃ k0 ∈ keysOf odT, normalize_name k0 = normalize_name k) ∧
                (∀ k, (lookupR rg1 k).isSome = true → (lookupR rg k).isSome = true ∨
                  k ∈ keysOf dgT))
              (fun _ _ => True) (fun _ _ => True) pname
              (fun e' ro1 l' ro1' rg1 hQ1 hc1 =>
                ⟨⟨fun k hk =>
                  match resolveOD_keys odT pname fuel e' ro1 (parents ++ [Item.group g]) l' ro1'
                      hc1 k hk with
                  | Or.inl hk1 => hQ1.1 k hk1
                  | Or.inr hw => Or.inr hw, hQ1.2⟩, trivial⟩)
              (fun g' ro1 rg1 l' ro1' rg1' hQ1 hc1 =>
                have hkeys := resolveDG_keys odT dgT pname fuel g' ro1 rg1
                  (parents ++ [Item.group g]) l' ro1' rg1' hc1
                ⟨⟨fun k hk =>
                  match hkeys.1 k hk with
                  | Or.inl hk1 => hQ1.1 k hk1
                  | Or.inr hw => Or.inr hw,
                  fun k hk =>
                  match hkeys.2 k hk with
                  | Or.inl hk1 => hQ1.2 k hk1
                  | Or.inr hw => Or.inr hw⟩, trivial⟩)
              body ro rg l0 ro0' rg0'
              ⟨fun k hk => Or.inl hk, fun k hk => Or.inl hk⟩ hpe
            refine ⟨hprov.1, ?_⟩
            intro k hk
            by_cases hkg : k = g
            · subst hkg
              exact Or.inr ((lookupR_isSome_iff dgT k).mp (by simp [hf]))
            · rw [lookupR_insertR_ne rg0' g k l0 hkg] at hk
              exact hprov.2 k hk

theorem resolveAllOD_keys (odT : RMap) (pname : Option String) (fuel : Nat) :
    ∀ (ks : List String) (R R2 : RMap),
      resolveAllOD odT pname fuel ks R = .ok R2 →
      ∀ k, (lookupR R2 k).isSome = true → (lookupR R k).isSome = true ∨
        ∃ k0 ∈ keysOf odT, normalize_name k0 = normalize_name k
  | [], R, R2, h => by
    simp only [resolveAllOD, Except.ok.injEq] at h
    subst h
    exact fun k hk => Or.inl hk
  | k :: ks, R, R2, h => by
    cases hk : resolveOD odT pname fuel k R [] with
    | error err => simp only [resolveAllOD, hk] at h; exact Except.noConfusion h
    | ok p =>
      obtain ⟨l, R'⟩ := p
      simp only [resolveAllOD, hk] at h
      intro k' hk'
      match resolveAllOD_keys odT pname fuel ks R' R2 h k' hk' with
      | Or.inr hw => exact Or.inr hw
      | Or.inl hk1 =>
        exact resolveOD_keys odT pname fuel k R [] l R' hk k' hk1

theorem resolveAllDG_keys (odT : RMap) (dgT : GTable) (pname : Option String) (fuel : Nat) :
    ∀ (ks : List String) (ro rg ro2 rg2 : RMap),
      resolveAllDG odT dgT pname fuel ks ro rg = .ok (ro2, rg2) →
      (∀ k, (lookupR ro2 k).isSome = true → (lookupR ro k).isSome = true ∨
        ∃ k0 ∈ keysOf odT, normalize_name k0 = normalize_name k) ∧
      (∀ k, (lookupR rg2 k).isSome = true → (lookupR rg k).isSome = true ∨ k ∈ keysOf dgT)
  | [], ro, rg, ro2, rg2, h => by
    simp only [resolveAllDG, Except.ok.injEq, Prod.mk.injEq] at h
    obtain ⟨h1, h2⟩ := h
    subst h1
    subst h2
    exact ⟨fun k hk => Or.inl hk, fun k hk => Or.inl hk⟩
  | k :: ks, ro, rg, ro2, rg2, h => by
    cases hk : resolveDG odT dgT pname fuel k ro rg [] with
    | error err => simp only [resolveAllDG, hk] at h; exact Except.noConfusion h
    | ok p =>
      obtain ⟨l, ro', rg'⟩ := p
      simp only [resolveAllDG, hk] at h
      have hstep := resolveDG_keys odT dgT pname fuel k ro rg [] l ro' rg' hk
      have hrest := resolveAllDG_keys odT dgT pname fuel ks ro' rg' ro2 rg2 h
      refine ⟨fun k' hk' => ?_, fun k' hk' => ?_⟩
      · match hrest.1 k' hk' with
        | Or.inr hw => exact Or.inr hw
        | Or.inl hk1 => exact hstep.1 k' hk1
      · match hrest.2 k' hk' with
        | Or.inr hw => exact Or.inr hw
        | Or.inl hk1 => exact hstep.2 k' hk1

/-- Claim C5, amended.  Every key of the returned `dependency_groups` map
existed as a key of the source dependency-groups table (so an extra resolved
cross-table never appears there), and every key of the returned
`optional_dependencies` map NORMALIZES to a key of the source
optional-dependencies table — but, contrary to the claim as stated, it may be
an alternate reference-site spelling of that key rather than the key itself.
On the repository's cross-table test input, `test` is a key of the
optional-dependencies result and not of the dependency-groups result. -/
theorem claim_C5_amended :
    (∀ (pname : Option String) (odT? : Option RMap) (dgT? : Option GTable) (fuel : Nat)
        (S : ResolvedDependencies),
      resolveFull pname odT? dgT? fuel = .ok S →
      (∀ k, (lookupR S.dependency_groups k).isSome = true → k ∈ keysOf (dgT?.getD [])) ∧
      (∀ k, (lookupR S.optional_dependencies k).isSome = true →
        ∃ k0 ∈ keysOf (odT?.getD []), normalize_name k0 = normalize_name k))
    ∧ (resolveFull (some "spam") (some [("test", [⟨"pytest", [], ""⟩])])
        (some [("dev", [.string ⟨"spam", ["test"], ""⟩])]) 10).map
        (fun S => ((lookupR S.optional_dependencies "test").isSome,
                   (lookupR S.dependency_groups "test").isSome,
                   (lookupR S.dependency_groups "dev").isSome)) =
      .ok (true, false, true) := by
  constructor
  · intro pname odT? dgT? fuel S h
    unfold resolveFull at h
    have hempty : ∀ (α : Type) (k : String), (lookupR ([] : List (String × α)) k).isSome = false := by
      intro α k
      simp [lookupR]
    cases odT? with
    | none =>
      cases dgT? with
      | none =>
        simp only [Except.ok.injEq] at h
        subst h
        constructor
        · intro k hk
          rw [hempty] at hk
          exact absurd hk (by simp)
        · intro k hk
          rw [hempty] at hk
          exact absurd hk (by simp)
      | some dgT =>
        cases hdg : resolveAllDG [] dgT pname fuel (keysOf dgT) [] [] with
        | error err => simp only [Option.getD, hdg] at h; exact Except.noConfusion h
        | ok p =>
          obtain ⟨ro, rg⟩ := p
          simp only [Option.getD, hdg, Except.ok.injEq] at h
          subst h
          have hkeys := resolveAllDG_keys [] dgT pname fuel (keysOf dgT) [] [] ro rg hdg
          constructor
          · intro k hk
            match hkeys.2 k hk with
            | Or.inl hk1 => rw [hempty] at hk1; exact absurd hk1 (by simp)
            | Or.inr hw => exact hw
          · intro k hk
            match hkeys.1 k hk with
            | Or.inl hk1 => rw [hempty] at hk1; exact absurd hk1 (by simp)
            | Or.inr hw => exact hw
    | some odT =>
      cases hod : resolveAllOD odT pname fuel (keysOf odT) [] with
      | error err => simp only [hod] at h; exact Except.noConfusion h
      | ok rOD =>
        have hODkeys := resolveAllOD_keys odT pname fuel (keysOf odT) [] rOD hod
        cases dgT? with
        | none =>
          simp only [hod, Except.ok.injEq] at h
          subst h
          constructor
          · intro k hk
            rw [hempty] at hk
            exact absurd hk (by simp)
          · intro k hk
            match hODkeys k hk with
            | Or.inl hk1 => rw [hempty] at hk1; exact absurd hk1 (by simp)
            | Or.inr hw => exact hw
        | some dgT =>
          cases hdg : resolveAllDG odT dgT pname fuel (keysOf dgT) rOD [] with
          | error err => simp only [hod, Option.getD, hdg] at h; exact Except.noConfusion h
          | ok p =>
            obtain ⟨ro, rg⟩ := p
            simp only [hod, Option.getD, hdg, Except.ok.injEq] at h
            subst h
            have hkeys := resolveAllDG_keys odT dgT pname fuel (keysOf dgT) rOD [] ro rg hdg
            constructor
            · intro k hk
              match hkeys.2 k hk with
              | Or.inl hk1 => rw [hempty] at hk1; exact absurd hk1 (by simp)
              | Or.inr hw => exact hw
            · intro k hk
              match hkeys.1 k hk with
              | Or.inl hk1 =>
                match hODkeys k hk1 with
                | Or.inl hk2 => rw [hempty] at hk2; exact absurd hk2 (by simp)
                | Or.inr hw => exact hw
              | Or.inr hw => exact hw
  · rfl

/-- Witness for the amended C5 at the repository's cross-table input: `dev`,
a key of the dependency-groups result, is a source dependency-groups key. -/
theorem claim_C5_witness :
    "dev" ∈ keysOf ([("dev", [DependencyGroupSpecifier.string ⟨"spam", ["test"], ""⟩])] : GTable) :=
  (claim_C5_amended.1 (some "spam") (some [("test", [⟨"pytest", [], ""⟩])])
      (some [("dev", [.string ⟨"spam", ["test"], ""⟩])]) 10
      ⟨[("test", [⟨"pytest", [], ""⟩])], [("dev", [⟨"pytest", [], ""⟩])]⟩ rfl).1 "dev"
    (by decide)

/-- Counterexample to C5 as stated: on the repository's underscores test
input (project `foo`, keys `all`, `group_one`, `group-two`, references
spelled `group-one` and `group_two`), the returned optional-dependencies map
contains the reference-site spelling `group-one`, which is not a key of the
source table. -/
theorem claim_C5_counterexample :
    (resolveFull (some "foo")
        (some [("all", [⟨"foo", ["group-one"], ""⟩, ⟨"foo", ["group_two"], ""⟩]),
               ("group_one", [⟨"anyio", [], ">=4.9.0"⟩]),
               ("group-two", [⟨"trio", [], ">=0.31.0"⟩])]) none 10).map
        (fun S => (lookupR S.optional_dependencies "group-one").isSome) = .ok true ∧
    ("group-one" ∈ keysOf
        ([("all", [⟨"foo", ["group-one"], ""⟩, ⟨"foo", ["group_two"], ""⟩]),
          ("group_one", [⟨"anyio", [], ">=4.9.0"⟩]),
          ("group-two", [⟨"trio", [], ">=0.31.0"⟩])] : RMap)) = False := by
  constructor
  · rfl
  · simp [keysOf]

theorem lookupR_mem {α : Type} (R : List (String × α)) (k : String) (v : α)
    (h : lookupR R k = some v) : ∃ kv, kv ∈ R ∧ kv.1 = k ∧ kv.2 = v := by
  unfold lookupR at h
  cases hf : R.find? (fun kv => kv.1 == k) with
  | none => rw [hf] at h; exact Option.noConfusion h
  | some kv =>
    rw [hf] at h
    refine ⟨kv, List.mem_of_find?_eq_some hf, by simpa using List.find?_some hf, ?_⟩
    simpa using h

theorem extra_mem_universe_of_key (odT : RMap) (dgT : GTable) (k : String)
    (h : k ∈ keysOf odT) : Item.extra k ∈ itemUniverse odT dgT := by
  unfold itemUniverse allExtras
  simp only [List.mem_append, List.mem_map]
  exact Or.inl ⟨k, by simp [h], rfl⟩

theorem group_mem_universe_of_key (odT : RMap) (dgT : GTable) (k : String)
    (h : k ∈ keysOf dgT) : Item.group k ∈ itemUniverse odT dgT := by
  unfold itemUniverse
  simp only [List.mem_append, List.mem_map]
  exact Or.inr ⟨k, by simp [h], rfl⟩

theorem extra_mem_universe_of_od_body (odT : RMap) (dgT : GTable) (e : String)
    (body : List Requirement) (hf : findNormalized odT e = some body)
    (req : Requirement) (hreq : req ∈ body) (e' : String) (he' : e' ∈ req.extras) :
    Item.extra e' ∈ itemUniverse odT dgT := by
  obtain ⟨kv, hkv, _, hbody⟩ := findNormalized_mem odT e body hf
  unfold itemUniverse allExtras
  simp only [List.mem_append, List.mem_map]
  refine Or.inl ⟨e', ?_, rfl⟩
  refine Or.inl (Or.inr ?_)
  exact List.mem_flatMap.mpr ⟨kv, hkv, List.mem_flatMap.mpr ⟨req, by rw [hbody]; exact hreq, he'⟩⟩

theorem extra_mem_universe_of_dg_body (odT : RMap) (dgT : GTable) (g : String)
    (body : List DependencyGroupSpecifier) (hf : lookupR dgT g = some body)
    (req : Requirement) (hreq : DependencyGroupSpecifier.string req ∈ body)
    (e' : String) (he' : e' ∈ req.extras) :
    Item.extra e' ∈ itemUniverse odT dgT := by
  obtain ⟨kv, hkv, _, hbody⟩ := lookupR_mem dgT g body hf
  unfold itemUniverse allExtras
  simp only [List.mem_append, List.mem_map]
  refine Or.inl ⟨e', ?_, rfl⟩
  refine Or.inr ?_
  refine List.mem_flatMap.mpr ⟨kv, hkv, List.mem_flatMap.mpr
    ⟨DependencyGroupSpecifier.string req, by rw [hbody]; exact hreq, he'⟩⟩

theorem group_mem_universe_of_dg_body (odT : RMap) (dgT : GTable) (g : String)
    (body : List DependencyGroupSpecifier) (hf : lookupR dgT g = some body)
    (g' : String) (hg' : DependencyGroupSpecifier.table g' ∈ body) :
    Item.group g' ∈ itemUniverse odT dgT := by
  obtain ⟨kv, hkv, _, hbody⟩ := lookupR_mem dgT g body hf
  unfold itemUniverse dgIncludes
  simp only [List.mem_append, List.mem_map]
  refine Or.inr ⟨g', Or.inr ?_, rfl⟩
  exact List.mem_flatMap.mpr ⟨kv, hkv, List.mem_filterMap.mpr
    ⟨DependencyGroupSpecifier.table g', by rw [hbody]; exact hg', rfl⟩⟩

theorem parents_length_le (parents univ : List Item) (hnd : parents.Nodup)
    (hsub : ∀ it ∈ parents, it ∈ univ) : parents.length ≤ univ.length :=
  (List.Nodup.subperm hnd (fun _ h => hsub _ h)).length_le

theorem parents_snoc_nodup (parents : List Item) (it : Item) (hnd : parents.Nodup)
    (hnotin : it ∉ parents) : (parents ++ [it]).Nodup := by
  rw [List.nodup_append]
  exact ⟨hnd, List.nodup_singleton it, by simpa [List.disjoint_singleton] using hnotin⟩

theorem resolveOD_noFuel (odT : RMap) (dgT : GTable) (pname : Option String) :
    ∀ (fuel : Nat) (e : String) (R : RMap) (parents : List Item),
      parents.Nodup → (∀ it ∈ parents, it ∈ itemUniverse odT dgT) →
      Item.extra e ∈ itemUniverse odT dgT →
      (itemUniverse odT dgT).length + 1 ≤ fuel + parents.length →
      resolveOD odT pname fuel e R parents ≠ .error .outOfFuel
  | 0, e, R, parents, hnd, hsub, hmem, hfuel => by
    have := parents_length_le parents (itemUniverse odT dgT) hnd hsub
    omega
  | fuel + 1, e, R, parents, hnd, hsub, hmem, hfuel => by
    cases hm : lookupR R e with
    | some reqs => simp [resolveOD, hm]
    | none =>
      cases hf : findNormalized odT e with
      | none =>
        cases hl : parents.getLast? with
        | none => simp [resolveOD, hm, hf, hl]
        | some p => simp [resolveOD, hm, hf, hl]
      | some body =>
        by_cases hc : Item.extra e ∈ parents
        · simp [resolveOD, hm, hf, hc]
        · cases hpe : processEntries
              (fun e' R0 => resolveOD odT pname fuel e' R0 (parents ++ [Item.extra e]))
              pname body R with
          | error err =>
            simp only [resolveOD, hm, hf, hpe]
            rw [if_neg (by simpa using hc)]
            intro hcontra
            have herr : err = RErr.outOfFuel := by simpa using hcontra
            rw [herr] at hpe
            exact processEntries_ne_err _ .outOfFuel pname body R
              (fun req hreq hmatch e' he' R' =>
                resolveOD_noFuel odT dgT pname fuel e' R' (parents ++ [Item.extra e])
                  (parents_snoc_nodup parents (Item.extra e) hnd hc)
                  (fun it hit => by
                    rcases List.mem_append.mp hit with hit2 | hit2
                    · exact hsub it hit2
                    · obtain rfl : it = Item.extra e := by simpa using hit2
                      exact hmem)
                  (extra_mem_universe_of_od_body odT dgT e body hf req hreq e' he')
                  (by simp only [List.length_append, List.length_cons, List.length_nil]; omega))
              hpe
          | ok p =>
            obtain ⟨l, R'⟩ := p
            simp only [resolveOD, hm, hf, hpe]
            rw [if_neg (by simpa using hc)]
            simp

theorem resolveDG_noFuel (odT : RMap) (dgT : GTable) (pname : Option String) :
    ∀ (fuel : Nat) (g : String) (ro rg : RMap) (parents : List Item),
      parents.Nodup → (∀ it ∈ parents, it ∈ itemUniverse odT dgT) →
      Item.group g ∈ itemUniverse odT dgT →
      (itemUniverse odT dgT).length + 1 ≤ fuel + parents.length →
      resolveDG odT dgT pname fuel g ro rg parents ≠ .error .outOfFuel
  | 0, g, ro, rg, parents, hnd, hsub, hmem, hfuel => by
    have := parents_length_le parents (itemUniverse odT dgT) hnd hsub
    omega
  | fuel + 1, g, ro, rg, parents, hnd, hsub, hmem, hfuel => by
    cases hm : lookupR rg g with
    | some reqs => simp [resolveDG, hm]
    | none =>
      cases hf : lookupR dgT g with
      | none =>
        cases hl : parents.getLast? with
        | none => simp [resolveDG, hm, hf, hl]
        | some p => simp [resolveDG, hm, hf, hl]
      | some body =>
        by_cases hc : Item.group g ∈ parents
        · simp [resolveDG, hm, hf, hc]
        · cases hpe : processDGEntries
              (fun e' R0 => resolveOD odT pname fuel e' R0 (parents ++ [Item.group g]))
              (fun g0 ro0 rg0 => resolveDG odT dgT pname fuel g0 ro0 rg0 (parents ++ [Item.group g]))
              pname body ro rg with
          | error err =>
            simp only [resolveDG, hm, hf, hpe]
            rw [if_neg (by simpa using hc)]
            intro hcontra
            have herr : err = RErr.outOfFuel := by simpa using hcontra
            rw [herr] at hpe
            have hsnoc : (parents ++ [Item.group g]).Nodup :=
              parents_snoc_nodup parents (Item.group g) hnd hc
            have hsub' : ∀ it ∈ parents ++ [Item.group g], it ∈ itemUniverse odT dgT := by
              intro it hit
              rcases List.mem_append.mp hit with hit | hit
              · exact hsub it hit
              · obtain rfl : it = Item.group g := by simpa using hit
                exact hmem
            have hlen : (itemUniverse odT dgT).length + 1 ≤
                fuel + (parents ++ [Item.group g]).length := by
              simp only [List.length_append, List.length_cons, List.length_nil]
              omega
            exact processDGEntries_ne_err _ _ .outOfFuel pname body ro rg
              (fun req hreq hmatch e' he' R' =>
                resolveOD_noFuel odT dgT pname fuel e' R' (parents ++ [Item.group g])
                  hsnoc hsub'
                  (extra_mem_universe_of_dg_body odT dgT g body hf req hreq e' he') hlen)
              (fun g' hg' ro' rg' =>
                resolveDG_noFuel odT dgT pname fuel g' ro' rg' (parents ++ [Item.group g])
                  hsnoc hsub'
                  (group_mem_universe_of_dg_body odT dgT g body hf g' hg') hlen)
              hpe
          | ok p =>
            obtain ⟨l, ro', rg'⟩ := p
            simp only [resolveDG, hm, hf, hpe]
            rw [if_neg (by simpa using hc)]
            simp

theorem resolveAllOD_noFuel (odT : RMap) (dgT : GTable) (pname : Option String) :
    ∀ (ks : List String) (R : RMap), (∀ k ∈ ks, k ∈ keysOf odT) →
      resolveAllOD odT pname ((itemUniverse odT dgT).length + 1) ks R ≠ .error .outOfFuel
  | [], R, hks => by simp [resolveAllOD]
  | k :: ks, R, hks => by
    cases hk : resolveOD odT pname ((itemUniverse odT dgT).length + 1) k R [] with
    | error err =>
      simp only [resolveAllOD, hk]
      intro hcontra
      have herr : err = RErr.outOfFuel := by simpa using hcontra
      rw [herr] at hk
      exact resolveOD_noFuel odT dgT pname ((itemUniverse odT dgT).length + 1) k R []
        List.nodup_nil (by simp)
        (extra_mem_universe_of_key odT dgT k (hks k (List.mem_cons_self k ks)))
        (by simp) hk
    | ok p =>
      obtain ⟨l, R'⟩ := p
      simp only [resolveAllOD, hk]
      exact resolveAllOD_noFuel odT dgT pname ks R'
        (fun k' hk' => hks k' (List.mem_cons_of_mem k hk'))

theorem resolveAllDG_noFuel (odT : RMap) (dgT : GTable) (pname : Option String) :
    ∀ (ks : List String) (ro rg : RMap), (∀ k ∈ ks, k ∈ keysOf dgT) →
      resolveAllDG odT dgT pname ((itemUniverse odT dgT).length + 1) ks ro rg ≠
        .error .outOfFuel
  | [], ro, rg, hks => by simp [resolveAllDG]
  | k :: ks, ro, rg, hks => by
    cases hk : resolveDG odT dgT pname ((itemUniverse odT dgT).length + 1) k ro rg [] with
    | error err =>
      simp only [resolveAllDG, hk]
      intro hcontra
      have herr : err = RErr.outOfFuel := by simpa using hcontra
      rw [herr] at hk
      exact resolveDG_noFuel odT dgT pname ((itemUniverse odT dgT).length + 1) k ro rg []
        List.nodup_nil (by simp)
        (group_mem_universe_of_key odT dgT k (hks k (List.mem_cons_self k ks)))
        (by simp) hk
    | ok p =>
      obtain ⟨l, ro', rg'⟩ := p
      simp only [resolveAllDG, hk]
      exact resolveAllDG_noFuel odT dgT pname ks ro' rg'
        (fun k' hk' => hks k' (List.mem_cons_of_mem k hk'))

theorem processExtras_ok_total (c : String → RMap → Except RErr (List Requirement × RMap))
    (Q : RMap → Prop) (F : String → List Requirement → Prop) :
    ∀ (es : List String) (R : RMap),
      (∀ e ∈ es, ∀ R0, Q R0 → ∃ l R0', c e R0 = .ok (l, R0') ∧ Q R0' ∧ F e l) →
      Q R → ∃ l R', processExtras c es R = .ok (l, R') ∧ Q R' ∧ extrasConcat F es l
  | [], R, hc, hQ => ⟨[], R, rfl, hQ, [], rfl, List.Forall₂.nil⟩
  | e :: es, R, hc, hQ => by
    obtain ⟨l1, R1, hce, hQ1, hF1⟩ := hc e (List.mem_cons_self e es) R hQ
    obtain ⟨l2, R2, hre, hQ2, ls, hflat, hfa⟩ := processExtras_ok_total c Q F es R1
      (fun e' he' => hc e' (List.mem_cons_of_mem e he')) hQ1
    refine ⟨l1 ++ l2, R2, ?_, hQ2, l1 :: ls, by simp [hflat], List.Forall₂.cons hF1 hfa⟩
    simp only [processExtras, hce, hre]

theorem processEntries_ok_total (c : String → RMap → Except RErr (List Requirement × RMap))
    (Q : RMap → Prop) (F : String → List Requirement → Prop) (pname : Option String) :
    ∀ (entries : List Requirement) (R : RMap),
      (∀ req ∈ entries, pnameMatches pname req = true → ∀ e ∈ req.extras, ∀ R0, Q R0 →
        ∃ l R0', c e R0 = .ok (l, R0') ∧ Q R0' ∧ F e l) →
      Q R → ∃ l R', processEntries c pname entries R = .ok (l, R') ∧ Q R' ∧
        entriesOut F pname entries l
  | [], R, hc, hQ => ⟨[], R, rfl, hQ, rfl⟩
  | req :: rest, R, hc, hQ => by
    by_cases hm : pnameMatches pname req = true
    · obtain ⟨l1, R1, hex, hQ1, hex1⟩ := processExtras_ok_total c Q F req.extras R
        (fun e he => hc req (List.mem_cons_self req rest) hm e he) hQ
      obtain ⟨l2, R2, hre, hQ2, hout⟩ := processEntries_ok_total c Q F pname rest R1
        (fun r hr => hc r (List.mem_cons_of_mem req hr)) hQ1
      refine ⟨l1 ++ l2, R2, ?_, hQ2, ?_⟩
      · simp only [processEntries, if_pos hm, hex, hre]
      · rw [entriesOut, if_pos hm]
        exact ⟨l1, l2, rfl, hex1, hout⟩
    · obtain ⟨l2, R2, hre, hQ2, hout⟩ := processEntries_ok_total c Q F pname rest R
        (fun r hr => hc r (List.mem_cons_of_mem req hr)) hQ
      refine ⟨req :: l2, R2, ?_, hQ2, ?_⟩
      · simp only [processEntries, if_neg hm, hre]
      · rw [entriesOut, if_neg hm]
        exact ⟨l2, rfl, hout⟩

theorem processDGEntries_ok_total
    (odc : String → RMap → Except RErr (List Requirement × RMap))
    (dgc : String → RMap → RMap → Except RErr (List Requirement × RMap × RMap))
    (Q : RMap → RMap → Prop) (F : String → List Requirement → Prop)
    (G : String → List Requirement → Prop) (pname : Option String) :
    ∀ (entries : List DependencyGroupSpecifier) (ro rg : RMap),
      (∀ req : Requirement, .string req ∈ entries → pnameMatches pname req = true →
        ∀ e ∈ req.extras, ∀ ro0 rg0, Q ro0 rg0 →
          ∃ l ro0', odc e ro0 = .ok (l, ro0') ∧ Q ro0' rg0 ∧ F e l) →
      (∀ g : String, .table g ∈ entries → ∀ ro0 rg0, Q ro0 rg0 →
        ∃ l ro0' rg0', dgc g ro0 rg0 = .ok (l, ro0', rg0') ∧ Q ro0' rg0' ∧ G g l) →
      Q ro rg → ∃ l ro' rg', processDGEntries odc dgc pname entries ro rg = .ok (l, ro', rg') ∧
        Q ro' rg' ∧ dgEntriesOut F G pname entries l
  | [], ro, rg, hodc, hdgc, hQ => ⟨[], ro, rg, rfl, hQ, rfl⟩
  | .string req :: rest, ro, rg, hodc, hdgc, hQ => by
    by_cases hm : pnameMatches pname req = true
    · obtain ⟨l1, ro1, hex, hQ1, hex1⟩ := processExtras_ok_total odc (fun ro0 => Q ro0 rg) F
        req.extras ro
        (fun e he ro0 hQ0 => by
          obtain ⟨l, ro0', hca, hQa, hFa⟩ :=
            hodc req (List.mem_cons_self _ rest) hm e he ro0 rg hQ0
          exact ⟨l, ro0', hca, hQa, hFa⟩) hQ
      obtain ⟨l2, ro2, rg2, hre, hQ2, hout⟩ := processDGEntries_ok_total odc dgc Q F G pname
        rest ro1 rg
        (fun r hr => hodc r (List.mem_cons_of_mem _ hr))
        (fun g hg => hdgc g (List.mem_cons_of_mem _ hg)) hQ1
      refine ⟨l1 ++ l2, ro2, rg2, ?_, hQ2, ?_⟩
      · simp only [processDGEntries, if_pos hm, hex, hre]
      · rw [dgEntriesOut, if_pos hm]
        exact ⟨l1, l2, rfl, hex1, hout⟩
    · obtain ⟨l2, ro2, rg2, hre, hQ2, hout⟩ := processDGEntries_ok_total odc dgc Q F G pname
        rest ro rg
        (fun r hr => hodc r (List.mem_cons_of_mem _ hr))
        (fun g hg => hdgc g (List.mem_cons_of_mem _ hg)) hQ
      refine ⟨req :: l2, ro2, rg2, ?_, hQ2, ?_⟩
      · simp only [processDGEntries, if_neg hm, hre]
      · rw [dgEntriesOut, if_neg hm]
        exact ⟨l2, rfl, hout⟩
  | .table g :: rest, ro, rg, hodc, hdgc, hQ => by
    obtain ⟨l1, ro1, rg1, hg1, hQ1, hG1⟩ := hdgc g (List.mem_cons_self _ rest) ro rg hQ
    obtain ⟨l2, ro2, rg2, hre, hQ2, hout⟩ := processDGEntries_ok_total odc dgc Q F G pname
      rest ro1 rg1
      (fun r hr => hodc r (List.mem_cons_of_mem _ hr))
      (fun g' hg' => hdgc g' (List.mem_cons_of_mem _ hg')) hQ1
    refine ⟨l1 ++ l2, ro2, rg2, ?_, hQ2, ?_⟩
    · simp only [processDGEntries, hg1, hre]
    · rw [dgEntriesOut]
      exact ⟨l1, l2, rfl, hG1, hout⟩

theorem extrasConcat_flat (pname : Option String) (es : List String)
    (out : List Requirement)
    (h : extrasConcat (fun _ l => flatList pname l = true) es out) :
    flatList pname out = true := by
  obtain ⟨ls, hout, hfa⟩ := h
  subst hout
  induction hfa with
  | nil => rfl
  | cons hF hfa2 ih =>
    simp only [List.flatten_cons, flatList, List.all_append, Bool.and_eq_true]
    exact ⟨by simpa [flatList] using hF, by simpa [flatList] using ih⟩

theorem entriesOut_flat (pname : Option String) :
    ∀ (body : List Requirement) (out : List Requirement),
      entriesOut (fun _ l => flatList pname l = true) pname body out →
      flatList pname out = true
  | [], out, h => by
    rw [entriesOut] at h
    subst h
    rfl
  | req :: rest, out, h => by
    by_cases hm : pnameMatches pname req = true
    · rw [entriesOut, if_pos hm] at h
      obtain ⟨l1, l2, hout, hex, hrest⟩ := h
      subst hout
      have h1 := extrasConcat_flat pname req.extras l1 hex
      have h2 := entriesOut_flat pname rest l2 hrest
      simpa [flatList] using ⟨by simpa [flatList] using h1, by simpa [flatList] using h2⟩
    · rw [entriesOut, if_neg hm] at h
      obtain ⟨l2, hout, hrest⟩ := h
      subst hout
      have h2 := entriesOut_flat pname rest l2 hrest
      simp only [flatList, List.all_cons, Bool.and_eq_true]
      exact ⟨by simpa using hm, by simpa [flatList] using h2⟩

theorem dgEntriesOut_flat (pname : Option String) :
    ∀ (body : List DependencyGroupSpecifier) (out : List Requirement),
      dgEntriesOut (fun _ l => flatList pname l = true)
        (fun _ l => flatList pname l = true) pname body out →
      flatList pname out = true
  | [], out, h => by
    rw [dgEntriesOut] at h
    subst h
    rfl
  | .string req :: rest, out, h => by
    by_cases hm : pnameMatches pname req = true
    · rw [dgEntriesOut, if_pos hm] at h
      obtain ⟨l1, l2, hout, hex, hrest⟩ := h
      subst hout
      have h1 := extrasConcat_flat pname req.extras l1 hex
      have h2 := dgEntriesOut_flat pname rest l2 hrest
      simpa [flatList] using ⟨by simpa [flatList] using h1, by simpa [flatList] using h2⟩
    · rw [dgEntriesOut, if_neg hm] at h
      obtain ⟨l2, hout, hrest⟩ := h
      subst hout
      have h2 := dgEntriesOut_flat pname rest l2 hrest
      simp only [flatList, List.all_cons, Bool.and_eq_true]
      exact ⟨by simpa using hm, by simpa [flatList] using h2⟩
  | .table g :: rest, out, h => by
    rw [dgEntriesOut] at h
    obtain ⟨l1, l2, hout, hG, hrest⟩ := h
    subst hout
    have h2 := dgEntriesOut_flat pname rest l2 hrest
    simpa [flatList] using ⟨by simpa [flatList] using hG, by simpa [flatList] using h2⟩

theorem wfaOD_spec (pname : Option String) (odT : RMap) (dgT : GTable) (rank : Item → Nat)
    (hwf : wfaOD pname odT dgT rank = true) (e : String)
    (he : e ∈ odRefNames pname odT dgT) :
    ∃ body, findNormalized odT e = some body ∧ odBodyOk pname rank e body = true := by
  have h := List.all_eq_true.mp hwf e he
  cases hf : findNormalized odT e with
  | none => rw [hf] at h; exact absurd h (by simp)
  | some body =>
    rw [hf] at h
    exact ⟨body, rfl, h⟩

theorem odBodyOk_spec (pname : Option String) (rank : Item → Nat) (s : String)
    (body : List Requirement) (h : odBodyOk pname rank s body = true)
    (req : Requirement) (hreq : req ∈ body) (hmatch : pnameMatches pname req = true)
    (e' : String) (he' : e' ∈ req.extras) :
    rank (Item.extra e') < rank (Item.extra s) := by
  have h1 := List.all_eq_true.mp h req hreq
  simp only [hmatch, Bool.not_true, Bool.false_or] at h1
  simpa using List.all_eq_true.mp h1 e' he'

theorem wfaDG_spec (pname : Option String) (dgT : GTable) (rank : Item → Nat)
    (hwf : wfaDG pname dgT rank = true) (g : String) (hg : g ∈ dgRefNames dgT) :
    ∃ body, lookupR dgT g = some body ∧ dgBodyOk pname rank g body = true := by
  have h := List.all_eq_true.mp hwf g hg
  cases hf : lookupR dgT g with
  | none => rw [hf] at h; exact absurd h (by simp)
  | some body =>
    rw [hf] at h
    exact ⟨body, rfl, h⟩

theorem dgBodyOk_string_spec (pname : Option String) (rank : Item → Nat) (g : String)
    (body : List DependencyGroupSpecifier) (h : dgBodyOk pname rank g body = true)
    (req : Requirement) (hreq : DependencyGroupSpecifier.string req ∈ body)
    (hmatch : pnameMatches pname req = true) (e' : String) (he' : e' ∈ req.extras) :
    rank (Item.extra e') < rank (Item.group g) := by
  have h1 := List.all_eq_true.mp h (DependencyGroupSpecifier.string req) hreq
  simp only [hmatch, Bool.not_true, Bool.false_or] at h1
  simpa using List.all_eq_true.mp h1 e' he'

theorem dgBodyOk_table_spec (pname : Option String) (rank : Item → Nat) (g : String)
    (body : List DependencyGroupSpecifier) (h : dgBodyOk pname rank g body = true)
    (g' : String) (hg' : DependencyGroupSpecifier.table g' ∈ body) :
    rank (Item.group g') < rank (Item.group g) := by
  have h1 := List.all_eq_true.mp h (DependencyGroupSpecifier.table g') hg'
  simpa using h1

theorem odRefNames_of_od_body (pname : Option String) (odT : RMap) (dgT : GTable)
    (e : String) (body : List Requirement) (hf : findNormalized odT e = some body)
    (req : Requirement) (hreq : req ∈ body) (hmatch : pnameMatches pname req = true)
    (e' : String) (he' : e' ∈ req.extras) : e' ∈ odRefNames pname odT dgT := by
  obtain ⟨kv, hkv, _, hbody⟩ := findNormalized_mem odT e body hf
  unfold odRefNames selfRefExtrasOD
  simp only [List.mem_append]
  refine Or.inl (Or.inr ?_)
  refine List.mem_flatMap.mpr ⟨kv, hkv, List.mem_flatMap.mpr ⟨req, by rw [hbody]; exact hreq, ?_⟩⟩
  rw [if_pos hmatch]
  exact he'

theorem odRefNames_of_dg_body (pname : Option String) (odT : RMap) (dgT : GTable)
    (g : String) (body : List DependencyGroupSpecifier) (hf : lookupR dgT g = some body)
    (req : Requirement) (hreq : DependencyGroupSpecifier.string req ∈ body)
    (hmatch : pnameMatches pname req = true) (e' : String) (he' : e' ∈ req.extras) :
    e' ∈ odRefNames pname odT dgT := by
  obtain ⟨kv, hkv, _, hbody⟩ := lookupR_mem dgT g body hf
  unfold odRefNames selfRefExtrasDG
  simp only [List.mem_append]
  refine Or.inr ?_
  refine List.mem_flatMap.mpr ⟨kv, hkv, List.mem_flatMap.mpr
    ⟨DependencyGroupSpecifier.string req, by rw [hbody]; exact hreq, ?_⟩⟩
  simp only [if_pos hmatch]
  exact he'

theorem dgRefNames_of_dg_body (dgT : GTable) (g : String)
    (body : List DependencyGroupSpecifier) (hf : lookupR dgT g = some body)
    (g' : String) (hg' : DependencyGroupSpecifier.table g' ∈ body) :
    g' ∈ dgRefNames dgT := by
  obtain ⟨kv, hkv, _, hbody⟩ := lookupR_mem dgT g body hf
  unfold dgRefNames dgIncludes
  simp only [List.mem_append]
  refine Or.inr ?_
  exact List.mem_flatMap.mpr ⟨kv, hkv, List.mem_filterMap.mpr
    ⟨DependencyGroupSpecifier.table g', by rw [hbody]; exact hg', rfl⟩⟩

theorem resolveOD_total (odT : RMap) (dgT : GTable) (pname : Option String)
    (rank : Item → Nat) (hwf : wfaOD pname odT dgT rank = true) :
    ∀ (fuel : Nat) (e : String) (R : RMap) (parents : List Item),
      e ∈ odRefNames pname odT dgT →
      (∀ it ∈ parents, rank (Item.extra e) < rank it) →
      parents.Nodup → (∀ it ∈ parents, it ∈ itemUniverse odT dgT) →
      Item.extra e ∈ itemUniverse odT dgT →
      (itemUniverse odT dgT).length + 1 ≤ fuel + parents.length →
      (∀ k v, lookupR R k = some v → flatList pname v = true) →
      ∃ l R', resolveOD odT pname fuel e R parents = .ok (l, R') ∧
        (∀ k v, lookupR R' k = some v → flatList pname v = true) ∧ flatList pname l = true
  | 0, e, R, parents, href, hrank, hnd, hsub, hmem, hfuel, hflat => by
    have := parents_length_le parents (itemUniverse odT dgT) hnd hsub
    omega
  | fuel + 1, e, R, parents, href, hrank, hnd, hsub, hmem, hfuel, hflat => by
    cases hm : lookupR R e with
    | some reqs =>
      refine ⟨reqs, R, ?_, hflat, hflat e reqs hm⟩
      simp [resolveOD, hm]
    | none =>
      obtain ⟨body, hf, hok⟩ := wfaOD_spec pname odT dgT rank hwf e href
      have hc : Item.extra e ∉ parents := by
        intro hin
        exact Nat.lt_irrefl _ (hrank (Item.extra e) hin)
      have hsnoc : (parents ++ [Item.extra e]).Nodup :=
        parents_snoc_nodup parents (Item.extra e) hnd hc
      have hsub' : ∀ it ∈ parents ++ [Item.extra e], it ∈ itemUniverse odT dgT := by
        intro it hit
        rcases List.mem_append.mp hit with hit2 | hit2
        · exact hsub it hit2
        · obtain rfl : it = Item.extra e := by simpa using hit2
          exact hmem
      have hlen : (itemUniverse odT dgT).length + 1 ≤
          fuel + (parents ++ [Item.extra e]).length := by
        simp only [List.length_append, List.length_cons, List.length_nil]
        omega
      obtain ⟨l0, R0', hpe, hflat', hout⟩ := processEntries_ok_total
        (fun e' R0 => resolveOD odT pname fuel e' R0 (parents ++ [Item.extra e]))
        (fun R1 => ∀ k v, lookupR R1 k = some v → flatList pname v = true)
        (fun _ l' => flatList pname l' = true) pname body R
        (fun req hreq hmatch e' he' R0 hQ0 => by
          have hrank' : ∀ it ∈ parents ++ [Item.extra e], rank (Item.extra e') < rank it := by
            intro it hit
            have hlt : rank (Item.extra e') < rank (Item.extra e) :=
              odBodyOk_spec pname rank e body hok req hreq hmatch e' he'
            rcases List.mem_append.mp hit with hit2 | hit2
            · exact Nat.lt_trans hlt (hrank it hit2)
            · obtain rfl : it = Item.extra e := by simpa using hit2
              exact hlt
          obtain ⟨l', R1', hres, hQ', hF'⟩ := resolveOD_total odT dgT pname rank hwf fuel e' R0
            (parents ++ [Item.extra e])
            (odRefNames_of_od_body pname odT dgT e body hf req hreq hmatch e' he')
            hrank' hsnoc hsub'
            (extra_mem_universe_of_od_body odT dgT e body hf req hreq e' he')
            hlen hQ0
          exact ⟨l', R1', hres, hQ', hF'⟩)
        hflat
      have hflatl0 : flatList pname l0 = true := entriesOut_flat pname body l0 hout
      refine ⟨l0, insertR R0' e l0, ?_, ?_, hflatl0⟩
      · simp only [resolveOD, hm, hf, hpe]
        rw [if_neg (by simpa using hc)]
      · intro k v hk
        by_cases hke : k = e
        · subst hke
          rw [lookupR_insertR_self] at hk
          obtain rfl : l0 = v := by simpa using hk
          exact hflatl0
        · rw [lookupR_insertR_ne R0' e k l0 hke] at hk
          exact hflat' k v hk

theorem resolveDG_total (odT : RMap) (dgT : GTable) (pname : Option String)
    (rank : Item → Nat) (hwfo : wfaOD pname odT dgT rank = true)
    (hwfg : wfaDG pname dgT rank = true) :
    ∀ (fuel : Nat) (g : String) (ro rg : RMap) (parents : List Item),
      g ∈ dgRefNames dgT →
      (∀ it ∈ parents, rank (Item.group g) < rank it) →
      parents.Nodup → (∀ it ∈ parents, it ∈ itemUniverse odT dgT) →
      Item.group g ∈ itemUniverse odT dgT →
      (itemUniverse odT dgT).length + 1 ≤ fuel + parents.length →
      (∀ k v, lookupR ro k = some v → flatList pname v = true) →
      (∀ k v, lookupR rg k = some v → flatList pname v = true) →
      ∃ l ro' rg', resolveDG odT dgT pname fuel g ro rg parents = .ok (l, ro', rg') ∧
        (∀ k v, lookupR ro' k = some v → flatList pname v = true) ∧
        (∀ k v, lookupR rg' k = some v → flatList pname v = true) ∧ flatList pname l = true
  | 0, g, ro, rg, parents, href, hrank, hnd, hsub, hmem, hfuel, hflato, hflatg => by
    have := parents_length_le parents (itemUniverse odT dgT) hnd hsub
    omega
  | fuel + 1, g, ro, rg, parents, href, hrank, hnd, hsub, hmem, hfuel, hflato, hflatg => by
    cases hm : lookupR rg g with
    | some reqs =>
      refine ⟨reqs, ro, rg, ?_, hflato, hflatg, hflatg g reqs hm⟩
      simp [resolveDG, hm]
    | none =>
      obtain ⟨body, hf, hok⟩ := wfaDG_spec pname dgT rank hwfg g href
      have hc : Item.group g ∉ parents := by
        intro hin
        exact Nat.lt_irrefl _ (hrank (Item.group g) hin)
      have hsnoc : (parents ++ [Item.group g]).Nodup :=
        parents_snoc_nodup parents (Item.group g) hnd hc
      have hsub' : ∀ it ∈ parents ++ [Item.group g], it ∈ itemUniverse odT dgT := by
        intro it hit
        rcases List.mem_append.mp hit with hit2 | hit2
        · exact hsub it hit2
        · obtain rfl : it = Item.group g := by simpa using hit2
          exact hmem
      have hlen : (itemUniverse odT dgT).length + 1 ≤
          fuel + (parents ++ [Item.group g]).length := by
        simp only [List.length_append, List.length_cons, List.length_nil]
        omega
      obtain ⟨l0, ro0', rg0', hpe, hflat', hout⟩ := processDGEntries_ok_total
        (fun e' R0 => resolveOD odT pname fuel e' R0 (parents ++ [Item.group g]))
        (fun g0 ro0 rg0 => resolveDG odT dgT pname fuel g0 ro0 rg0 (parents ++ [Item.group g]))
        (fun ro1 rg1 =>
          (∀ k v, lookupR ro1 k = some v → flatList pname v = true) ∧
          (∀ k v, lookupR rg1 k = some v → flatList pname v = true))
        (fun _ l' => flatList pname l' = true)
        (fun _ l' => flatList pname l' = true) pname body ro rg
        (fun req hreq hmatch e' he' ro0 rg0 hQ0 => by
          have hrank' : ∀ it ∈ parents ++ [Item.group g], rank (Item.extra e') < rank it := by
            intro it hit
            have hlt : rank (Item.extra e') < rank (Item.group g) :=
              dgBodyOk_string_spec pname rank g body hok req hreq hmatch e' he'
            rcases List.mem_append.mp hit with hit2 | hit2
            · exact Nat.lt_trans hlt (hrank it hit2)
            · obtain rfl : it = Item.group g := by simpa using hit2
              exact hlt
          obtain ⟨l', R1', hres, hQ', hF'⟩ := resolveOD_total odT dgT pname rank hwfo
            fuel e' ro0 (parents ++ [Item.group g])
            (odRefNames_of_dg_body pname odT dgT g body hf req hreq hmatch e' he')
            hrank' hsnoc hsub'
            (extra_mem_universe_of_dg_body odT dgT g body hf req hreq e' he')
            hlen hQ0.1
          exact ⟨l', R1', hres, ⟨hQ', hQ0.2⟩, hF'⟩)
        (fun g' hg' ro0 rg0 hQ0 => by
          have hrank' : ∀ it ∈ parents ++ [Item.group g], rank (Item.group g') < rank it := by
            intro it hit
            have hlt : rank (Item.group g') < rank (Item.group g) :=
              dgBodyOk_table_spec pname rank g body hok g' hg'
            rcases List.mem_append.mp hit with hit2 | hit2
            · exact Nat.lt_trans hlt (hrank it hit2)
            · obtain rfl : it = Item.group g := by simpa using hit2
              exact hlt
          obtain ⟨l', ro1', rg1', hres, hQo', hQg', hF'⟩ :=
            resolveDG_total odT dgT pname rank hwfo hwfg fuel g' ro0 rg0
            (parents ++ [Item.group g])
            (dgRefNames_of_dg_body dgT g body hf g' hg')
            hrank' hsnoc hsub'
            (group_mem_universe_of_dg_body odT dgT g body hf g' hg')
            hlen hQ0.1 hQ0.2
          exact ⟨l', ro1', rg1', hres, ⟨hQo', hQg'⟩, hF'⟩)
        ⟨hflato, hflatg⟩
      have hflatl0 : flatList pname l0 = true := dgEntriesOut_flat pname body l0 hout
      refine ⟨l0, ro0', insertR rg0' g l0, ?_, hflat'.1, ?_, hflatl0⟩
      · simp only [resolveDG, hm, hf, hpe]
        rw [if_neg (by simpa using hc)]
      · intro k v hk
        by_cases hkg : k = g
        · subst hkg
          rw [lookupR_insertR_self] at hk
          obtain rfl : l0 = v := by simpa using hk
          exact hflatl0
        · rw [lookupR_insertR_ne rg0' g k l0 hkg] at hk
          exact hflat'.2 k v hk

theorem resolveAllOD_total (odT : RMap) (dgT : GTable) (pname : Option String)
    (rank : Item → Nat) (hwf : wfaOD pname odT dgT rank = true) :
    ∀ (ks : List String) (R : RMap), (∀ k ∈ ks, k ∈ keysOf odT) →
      (∀ k v, lookupR R k = some v → flatList pname v = true) →
      ∃ R2, resolveAllOD odT pname ((itemUniverse odT dgT).length + 1) ks R = .ok R2 ∧
        ∀ k v, lookupR R2 k = some v → flatList pname v = true
  | [], R, hks, hflat => ⟨R, rfl, hflat⟩
  | k :: ks, R, hks, hflat => by
    have hkk : k ∈ keysOf odT := hks k (List.mem_cons_self k ks)
    obtain ⟨l, R', hres, hflat', _⟩ := resolveOD_total odT dgT pname rank hwf
      ((itemUniverse odT dgT).length + 1) k R []
      (by unfold odRefNames; exact List.mem_append.mpr (Or.inl (List.mem_append.mpr (Or.inl hkk))))
      (by simp) List.nodup_nil (by simp)
      (extra_mem_universe_of_key odT dgT k hkk) (by simp) hflat
    obtain ⟨R2, hrest, hflat2⟩ := resolveAllOD_total odT dgT pname rank hwf ks R'
      (fun k' hk' => hks k' (List.mem_cons_of_mem k hk')) hflat'
    refine ⟨R2, ?_, hflat2⟩
    simp only [resolveAllOD, hres, hrest]

theorem resolveAllDG_total (odT : RMap) (dgT : GTable) (pname : Option String)
    (rank : Item → Nat) (hwfo : wfaOD pname odT dgT rank = true)
    (hwfg : wfaDG pname dgT rank = true) :
    ∀ (ks : List String) (ro rg : RMap), (∀ k ∈ ks, k ∈ keysOf dgT) →
      (∀ k v, lookupR ro k = some v → flatList pname v = true) →
      (∀ k v, lookupR rg k = some v → flatList pname v = true) →
      ∃ ro2 rg2, resolveAllDG odT dgT pname ((itemUniverse odT dgT).length + 1) ks ro rg =
          .ok (ro2, rg2) ∧
        (∀ k v, lookupR ro2 k = some v → flatList pname v = true) ∧
        (∀ k v, lookupR rg2 k = some v → flatList pname v = true)
  | [], ro, rg, hks, hflato, hflatg => ⟨ro, rg, rfl, hflato, hflatg⟩
  | k :: ks, ro, rg, hks, hflato, hflatg => by
    have hkk : k ∈ keysOf dgT := hks k (List.mem_cons_self k ks)
    obtain ⟨l, ro', rg', hres, hflato', hflatg', _⟩ := resolveDG_total odT dgT pname rank
      hwfo hwfg ((itemUniverse odT dgT).length + 1) k ro rg []
      (by unfold dgRefNames; exact List.mem_append.mpr (Or.inl hkk))
      (by simp) List.nodup_nil (by simp)
      (group_mem_universe_of_key odT dgT k hkk) (by simp) hflato hflatg
    obtain ⟨ro2, rg2, hrest, hflat2o, hflat2g⟩ := resolveAllDG_total odT dgT pname rank
      hwfo hwfg ks ro' rg'
      (fun k' hk' => hks k' (List.mem_cons_of_mem k hk')) hflato' hflatg'
    refine ⟨ro2, rg2, ?_, hflat2o, hflat2g⟩
    simp only [resolveAllDG, hres, hrest]

theorem resolveFull_none_none (pname : Option String) (fuel : Nat) :
    resolveFull pname none none fuel = .ok ⟨[], []⟩ := rfl

theorem resolveFull_none_some (pname : Option String) (dgT : GTable) (fuel : Nat) :
    resolveFull pname none (some dgT) fuel =
      (match resolveAllDG [] dgT pname fuel (keysOf dgT) [] [] with
       | .error err => .error err
       | .ok (ro, rg) => .ok ⟨ro, rg⟩) := rfl

theorem resolveFull_some_none (pname : Option String) (odT : RMap) (fuel : Nat) :
    resolveFull pname (some odT) none fuel =
      (match resolveAllOD odT pname fuel (keysOf odT) [] with
       | .error err => .error err
       | .ok rOD => .ok ⟨rOD, []⟩) := rfl

theorem resolveFull_some_some (pname : Option String) (odT : RMap) (dgT : GTable)
    (fuel : Nat) :
    resolveFull pname (some odT) (some dgT) fuel =
      (match resolveAllOD odT pname fuel (keysOf odT) [] with
       | .error err => .error err
       | .ok rOD =>
         match resolveAllDG odT dgT pname fuel (keysOf dgT) rOD [] with
         | .error err => .error err
         | .ok (ro, rg) => .ok ⟨ro, rg⟩) := rfl

theorem fuelBound_some_some (odT : RMap) (dgT : GTable) :
    fuelBound (some odT) (some dgT) = (itemUniverse odT dgT).length + 1 := rfl

theorem fuelBound_none_some (dgT : GTable) :
    fuelBound none (some dgT) = (itemUniverse [] dgT).length + 1 := rfl

theorem fuelBound_some_none (odT : RMap) :
    fuelBound (some odT) none = (itemUniverse odT []).length + 1 := rfl

/-- Claim C8.  (1) Termination: at the computable fuel bound
`fuelBound` (one more than the number of tagged names that can ever sit on
the ancestor stack), `resolve()` never exhausts its fuel on ANY input —
cyclic or missing-reference inputs included, which return one of the real
errors instead.  (2) For every well-formed acyclic input — all references
present and a rank function decreasing along every reference edge, the
finite-graph equivalent of acyclicity — `resolve()` returns `Ok`, and every
list in both returned maps is flat: it contains only concrete requirements,
no self-reference entry (and include entries are unrepresentable in the
result type `Vec<Requirement>`). -/
theorem claim_C8 :
    (∀ (pname : Option String) (odT? : Option RMap) (dgT? : Option GTable),
      resolveFull pname odT? dgT? (fuelBound odT? dgT?) ≠ .error .outOfFuel)
    ∧ (∀ (pname : Option String) (odT : RMap) (dgT : GTable) (rank : Item → Nat),
      wellFormedAcyclic pname odT dgT rank = true →
      ∃ S, resolveFull pname (some odT) (some dgT) (fuelBound (some odT) (some dgT)) = .ok S ∧
        (∀ k v, lookupR S.optional_dependencies k = some v → flatList pname v = true) ∧
        (∀ k v, lookupR S.dependency_groups k = some v → flatList pname v = true)) := by
  constructor
  · intro pname odT? dgT?
    cases odT? with
    | none =>
      cases dgT? with
      | none => rw [resolveFull_none_none]; simp
      | some dgT =>
        rw [fuelBound_none_some, resolveFull_none_some]
        cases hdg : resolveAllDG [] dgT pname ((itemUniverse [] dgT).length + 1)
            (keysOf dgT) [] [] with
        | error err =>
          intro hcontra
          have herr : err = RErr.outOfFuel := by simpa using hcontra
          rw [herr] at hdg
          exact resolveAllDG_noFuel [] dgT pname (keysOf dgT) [] [] (fun k hk => hk) hdg
        | ok p =>
          obtain ⟨ro, rg⟩ := p
          simp
    | some odT =>
      cases dgT? with
      | none =>
        rw [fuelBound_some_none, resolveFull_some_none]
        cases hod : resolveAllOD odT pname ((itemUniverse odT []).length + 1)
            (keysOf odT) [] with
        | error err =>
          intro hcontra
          have herr : err = RErr.outOfFuel := by simpa using hcontra
          rw [herr] at hod
          exact resolveAllOD_noFuel odT [] pname (keysOf odT) [] (fun k hk => hk) hod
        | ok rOD => simp
      | some dgT =>
        rw [fuelBound_some_some, resolveFull_some_some]
        cases hod : resolveAllOD odT pname ((itemUniverse odT dgT).length + 1)
            (keysOf odT) [] with
        | error err =>
          intro hcontra
          have herr : err = RErr.outOfFuel := by simpa using hcontra
          rw [herr] at hod
          exact resolveAllOD_noFuel odT dgT pname (keysOf odT) [] (fun k hk => hk) hod
        | ok rOD =>
          cases hdg : resolveAllDG odT dgT pname ((itemUniverse odT dgT).length + 1)
              (keysOf dgT) rOD [] with
          | error err =>
            intro hcontra
            have herr : err = RErr.outOfFuel := by simpa [hdg] using hcontra
            rw [herr] at hdg
            exact resolveAllDG_noFuel odT dgT pname (keysOf dgT) rOD [] (fun k hk => hk) hdg
          | ok p =>
            obtain ⟨ro, rg⟩ := p
            intro hcontra
            simp [hdg] at hcontra
  · intro pname odT dgT rank hwf
    have hsplit : wfaOD pname odT dgT rank = true ∧ wfaDG pname dgT rank = true := by
      have h2 := hwf
      unfold wellFormedAcyclic at h2
      simpa using h2
    have hempty : ∀ k v, lookupR ([] : RMap) k = some v → flatList pname v = true := by
      intro k v hk
      simp [lookupR] at hk
    obtain ⟨rOD, hod, hflatOD⟩ := resolveAllOD_total odT dgT pname rank hsplit.1
      (keysOf odT) [] (fun k hk => hk) hempty
    obtain ⟨ro2, rg2, hdg, hflato, hflatg⟩ := resolveAllDG_total odT dgT pname rank
      hsplit.1 hsplit.2 (keysOf dgT) rOD [] (fun k hk => hk) hflatOD hempty
    refine ⟨⟨ro2, rg2⟩, ?_, hflato, hflatg⟩
    rw [fuelBound_some_some, resolveFull_some_some]
    simp only [hod, hdg]

/-- Witness for C8 on a concrete acyclic input with an explicit decreasing
rank: resolution succeeds and the hypotheses of the theorem hold by
computation. -/
theorem claim_C8_witness :
    ∃ S, resolveFull (some "p") (some [("a", [⟨"x", [], ""⟩])])
        (some [("d", [.table "e"]), ("e", [.string ⟨"y", [], ""⟩])])
        (fuelBound (some [("a", [⟨"x", [], ""⟩])])
          (some [("d", [.table "e"]), ("e", [.string ⟨"y", [], ""⟩])])) = .ok S ∧
      (∀ k v, lookupR S.optional_dependencies k = some v → flatList (some "p") v = true) ∧
      (∀ k v, lookupR S.dependency_groups k = some v → flatList (some "p") v = true) :=
  claim_C8.2 (some "p") [("a", [⟨"x", [], ""⟩])]
    [("d", [.table "e"]), ("e", [.string ⟨"y", [], ""⟩])]
    (fun it => if it = Item.group "d" then 1 else 0) (by decide)
